import Mathlib

/-!
Shallow embedding of the payfac-ledger core (ledger.go, models.go) and proofs
of the specified properties.

Modelling conventions, stated once:
* Go maps (`transactions`, `refIndex`, `processedFiles`, `settlementTotals`)
  are association lists in insertion order.  `lookupKey` is first-match
  lookup, `setKey` replaces the first binding of the key or appends a fresh
  one, matching Go map read/write semantics.
* Go iterates maps in an unspecified order.  Loops whose effect is
  insensitive to that order (the reconcile sweep, the per-merchant funding
  sweep, the available-balance aggregation) iterate the association list in
  list order.  The one place where the order is observable in a result --
  the merchant loop of ExecutePayoutBatch -- takes the iteration order as an
  explicit parameter `ord`, and reachability quantifies over every order
  that enumerates the keys of the Go map exactly once.
* `int64` amounts are modelled as `Int`; wraparound is immaterial to the
  stated claims, which compare sums built from the same amounts on both
  sides.
* `time.Time` fields (`CreatedAt` on transactions and entries) and the
  clock-derived payout reference string carry no information used by any
  operation or claim and are omitted; the payout capability is modelled as
  a pure function of merchant id and amount returning `none` on success or
  `some msg` on failure.
* Go errors are modelled by the `LedgerError` inductive; each constructor
  carries the data of the corresponding `errors.New` / `fmt.Errorf` message.
* Each operation returns the (possibly unchanged) ledger paired with its
  outcome; an early `return err` in Go, which happens before any mutation,
  is translated as returning the input ledger unchanged.
-/

/-- Account names, from models.go. -/
inductive Account where
  | cardProcessor
  | pending
  | settling
  | available
  | funded
  | merchantBank
deriving DecidableEq, Repr

/-- Transaction lifecycle status, from models.go. -/
inductive TransactionStatus where
  | pending
  | settling
  | available
  | funded
deriving DecidableEq, Repr

/-- Debit or credit, from models.go. -/
inductive EntryType where
  | debit
  | credit
deriving DecidableEq, Repr

/-- Calendar date in YYYY-MM-DD form, from models.go. -/
abbrev Date := String

/-- A card payment submitted by a merchant, from models.go.
The `CreatedAt` timestamp is omitted (see the module header). -/
structure Transaction where
  transactionID : String
  merchantID : String
  cardNumber : String
  amount : Int
  processorRefID : String
  status : TransactionStatus
  settlementDate : Date
deriving DecidableEq, Repr

/-- One row of a journal pair, from models.go.
The `CreatedAt` timestamp is omitted (see the module header). -/
structure LedgerEntry where
  id : Nat
  journalID : Nat
  transactionID : String
  merchantID : String
  account : Account
  entryType : EntryType
  amount : Int
  reference : String
deriving DecidableEq, Repr

/-- A single row of a settlement file, from models.go. -/
structure SettlementRow where
  processorRefID : String
  merchantID : String
  amount : Int
deriving DecidableEq, Repr

/-- A daily settlement file, from models.go. -/
structure SettlementFile where
  fileID : String
  date : Date
  rows : List SettlementRow
deriving DecidableEq, Repr

/-- A bank deposit notice, from models.go. -/
structure BankDeposit where
  amount : Int
  settlementDate : Date
deriving DecidableEq, Repr

/-- Outcome summary of processing one settlement file.  ledger.go uses the
fields Matched, Unmatched, AlreadySettled and UnmatchedRows (models.go omits
the Unmatched counter; ledger.go, which increments it, is authoritative). -/
structure SettlementFileResult where
  matched : Nat
  unmatched : Nat
  alreadySettled : Nat
  unmatchedRows : List SettlementRow
deriving DecidableEq, Repr

/-- Per-account balances, from models.go (ledger.go names the same record
MerchantBalance); merchantID is empty for the system-wide balance. -/
structure Balance where
  merchantID : String
  pending : Int
  settling : Int
  available : Int
  funded : Int
deriving DecidableEq, Repr

/-- Outcome of a single merchant payout, from models.go.  The Go `error`
field is modelled as `Option String`. -/
structure PayoutResult where
  merchantID : String
  amount : Int
  success : Bool
  error : Option String
deriving DecidableEq, Repr

/-- The error taxonomy of the engine; each constructor corresponds to one
`errors.New` / `fmt.Errorf` site in ledger.go and carries the data the Go
message interpolates. -/
inductive LedgerError where
  | validationError (msg : String)
  | duplicateError (txnID : String)
  | notFoundError (date : Date)
  | mismatchError (date : Date) (expected got : Int)
deriving DecidableEq, Repr

/-- First-match lookup in an association list, the model of a Go map read. -/
def lookupKey (k : String) : List (String × α) → Option α
  | [] => none
  | (k₂, v) :: rest => if k₂ = k then some v else lookupKey k rest

/-- Replace the first binding of `k`, or append a fresh one: the model of a
Go map write. -/
def setKey (k : String) (v : α) : List (String × α) → List (String × α)
  | [] => [(k, v)]
  | (k₂, v₂) :: rest => if k₂ = k then (k, v) :: rest else (k₂, v₂) :: setKey k v rest

/-- The ledger state, from ledger.go.  The `settlementDates` map of the Go
struct is only ever initialized and never read or written afterwards, and
the injected payout capability is passed to `ExecutePayoutBatch` explicitly
instead of being stored (see the module header); both are omitted here. -/
structure Ledger where
  transactions : List (String × Transaction)
  refIndex : List (String × String)
  entries : List LedgerEntry
  nextEntryID : Nat
  processedFiles : List String
  settlementTotals : List (Date × Int)
deriving DecidableEq, Repr

/-- NewLedger from ledger.go: the fresh empty ledger. -/
def NewLedger : Ledger :=
  { transactions := []
    refIndex := []
    entries := []
    nextEntryID := 0
    processedFiles := []
    settlementTotals := [] }

/-- Core of addEntry from ledger.go: bump the journal counter and append the
debit and credit halves of one journal pair. -/
def addEntryRaw (es : List LedgerEntry) (n : Nat) (txnID merchID : String)
    (debitAcct creditAcct : Account) (amount : Int) (ref : String) :
    List LedgerEntry × Nat :=
  let journalID := n + 1
  (es ++
    [{ id := 2 * journalID - 1
       journalID := journalID
       transactionID := txnID
       merchantID := merchID
       account := debitAcct
       entryType := .debit
       amount := amount
       reference := ref },
     { id := 2 * journalID
       journalID := journalID
       transactionID := txnID
       merchantID := merchID
       account := creditAcct
       entryType := .credit
       amount := amount
       reference := ref }],
   journalID)

/-- addEntry from ledger.go, acting on the whole ledger state. -/
def Ledger.addEntry (l : Ledger) (txnID merchID : String)
    (debitAcct creditAcct : Account) (amount : Int) (ref : String) : Ledger :=
  let p := addEntryRaw l.entries l.nextEntryID txnID merchID debitAcct creditAcct amount ref
  { l with entries := p.1, nextEntryID := p.2 }

/-- RecordAuthorization from ledger.go. -/
def RecordAuthorization (l : Ledger) (txn : Transaction) : Ledger × Option LedgerError :=
  if txn.transactionID = "" then
    (l, some (.validationError "transaction_id is required"))
  else if txn.merchantID = "" then
    (l, some (.validationError "merchant_id is required"))
  else if txn.amount ≤ 0 then
    (l, some (.validationError "amount must be positive"))
  else if txn.processorRefID = "" then
    (l, some (.validationError "processor_reference_id is required"))
  else
    match lookupKey txn.transactionID l.transactions with
    | some _ => (l, some (.duplicateError txn.transactionID))
    | none =>
      let t := { txn with status := .pending }
      let l₂ := { l with
        transactions := setKey t.transactionID t l.transactions
        refIndex := setKey t.processorRefID t.transactionID l.refIndex }
      (l₂.addEntry t.transactionID t.merchantID .cardProcessor .pending t.amount
        "authorization", none)

/-- Accumulator threaded through the settlement row loop of
ProcessSettlementFile: the ledger, the result so far and the running
totalAmount. -/
structure SettleAcc where
  ledger : Ledger
  result : SettlementFileResult
  total : Int

/-- Body of the row loop of ProcessSettlementFile from ledger.go.  The inner
`none` transaction branch is unreachable in Go (the reference index only ever
maps to recorded transactions, which are never deleted); Go would dereference
a nil pointer there, and the model leaves the ledger unchanged. -/
def settleRow (date : Date) (acc : SettleAcc) (row : SettlementRow) : SettleAcc :=
  let total := acc.total + row.amount
  match lookupKey row.processorRefID acc.ledger.refIndex with
  | none =>
    { acc with
      total := total
      result := { acc.result with
        unmatched := acc.result.unmatched + 1
        unmatchedRows := acc.result.unmatchedRows ++ [row] } }
  | some txnID =>
    match lookupKey txnID acc.ledger.transactions with
    | none => { acc with total := total }
    | some txn =>
      if txn.status ≠ .pending then
        { acc with
          total := total
          result := { acc.result with alreadySettled := acc.result.alreadySettled + 1 } }
      else
        let t := { txn with status := .settling, settlementDate := date }
        let l₂ := { acc.ledger with transactions := setKey txnID t acc.ledger.transactions }
        { ledger := l₂.addEntry t.transactionID t.merchantID .pending .settling
            row.amount "settlement"
          result := { acc.result with matched := acc.result.matched + 1 }
          total := total }

/-- ProcessSettlementFile from ledger.go. -/
def ProcessSettlementFile (l : Ledger) (file : SettlementFile) :
    Ledger × Except LedgerError SettlementFileResult :=
  if file.fileID = "" then
    (l, .error (.validationError "file_id is required"))
  else if file.fileID ∈ l.processedFiles then
    (l, .ok { matched := 0, unmatched := 0, alreadySettled := 0, unmatchedRows := [] })
  else
    let acc := file.rows.foldl (settleRow file.date)
      { ledger := l
        result := { matched := 0, unmatched := 0, alreadySettled := 0, unmatchedRows := [] }
        total := 0 }
    ({ acc.ledger with
        processedFiles := file.fileID :: acc.ledger.processedFiles
        settlementTotals := setKey file.date acc.total acc.ledger.settlementTotals },
     .ok acc.result)

/-- Shared shape of the two status sweeps of ledger.go (the reconciliation
loop and the per-merchant funding loop): walk the transaction list, and for
every transaction satisfying `pred`, set its status to `newStatus` and append
one journal pair moving its amount from `debitAcct` to `creditAcct`. -/
def sweep (pred : Transaction → Bool) (newStatus : TransactionStatus)
    (debitAcct creditAcct : Account) (ref : String) :
    List (String × Transaction) → List LedgerEntry → Nat →
    List (String × Transaction) × List LedgerEntry × Nat
  | [], es, n => ([], es, n)
  | (k, t) :: rest, es, n =>
    if pred t then
      let p := addEntryRaw es n t.transactionID t.merchantID debitAcct creditAcct
        t.amount ref
      let r := sweep pred newStatus debitAcct creditAcct ref rest p.1 p.2
      ((k, { t with status := newStatus }) :: r.1, r.2.1, r.2.2)
    else
      let r := sweep pred newStatus debitAcct creditAcct ref rest es n
      ((k, t) :: r.1, r.2.1, r.2.2)

/-- ReconcileBankDeposit from ledger.go. -/
def ReconcileBankDeposit (l : Ledger) (amount : Int) (settlementDate : Date) :
    Ledger × Option LedgerError :=
  match lookupKey settlementDate l.settlementTotals with
  | none => (l, some (.notFoundError settlementDate))
  | some expected =>
    if amount ≠ expected then
      (l, some (.mismatchError settlementDate expected amount))
    else
      let r := sweep
        (fun t => decide (t.status = .settling ∧ t.settlementDate = settlementDate))
        .available .settling .available "bank_reconciliation"
        l.transactions l.entries l.nextEntryID
      ({ l with transactions := r.1, entries := r.2.1, nextEntryID := r.2.2 }, none)

/-- Aggregated Available amount of one merchant, the value the `available`
map of ExecutePayoutBatch holds for that merchant. -/
def availableOf (l : Ledger) (m : String) : Int :=
  ((l.transactions.filter
      (fun kt => decide (kt.2.status = .available ∧ kt.2.merchantID = m))).map
    (fun kt => kt.2.amount)).sum

/-- The key set of the `available` map of ExecutePayoutBatch: merchants with
at least one Available transaction, each listed once. -/
def availableMerchants (l : Ledger) : List String :=
  (((l.transactions.filter (fun kt => decide (kt.2.status = .available))).map
    (fun kt => kt.2.merchantID)).dedup)

/-- An iteration order `ord` is valid for the merchant loop of
ExecutePayoutBatch when it enumerates the keys of the `available` map
exactly once; Go map iteration yields some such order, unspecified which. -/
def ValidOrder (l : Ledger) (ord : List String) : Prop :=
  ord.Nodup ∧ (∀ m, m ∈ ord → m ∈ availableMerchants l) ∧
    (∀ m, m ∈ availableMerchants l → m ∈ ord)

instance (l : Ledger) (ord : List String) : Decidable (ValidOrder l ord) := by
  unfold ValidOrder; infer_instance

/-- Body of the merchant loop of ExecutePayoutBatch from ledger.go: `avail`
is the per-merchant aggregate precomputed from the state at entry to the
batch, `pf` the injected payout capability. -/
def payoutStep (avail : String → Int) (pf : String → Int → Option String)
    (acc : Ledger × List PayoutResult) (m : String) : Ledger × List PayoutResult :=
  let amount := avail m
  if amount ≤ 0 then acc
  else
    match pf m amount with
    | some e =>
      (acc.1,
       acc.2 ++ [{ merchantID := m, amount := amount, success := false, error := some e }])
    | none =>
      let r := sweep (fun t => decide (t.merchantID = m ∧ t.status = .available))
        .funded .available .funded "payout"
        acc.1.transactions acc.1.entries acc.1.nextEntryID
      ({ acc.1 with transactions := r.1, entries := r.2.1, nextEntryID := r.2.2 },
       acc.2 ++ [{ merchantID := m, amount := amount, success := true, error := none }])

/-- ExecutePayoutBatch from ledger.go, with the merchant iteration order
made explicit (see the module header). -/
def ExecutePayoutBatch (l : Ledger) (pf : String → Int → Option String)
    (ord : List String) : Ledger × List PayoutResult :=
  ord.foldl (payoutStep (availableOf l) pf) (l, [])

/-- addToAccount from ledger.go. -/
def addToAccount (bal : Balance) (acct : Account) (amount : Int) : Balance :=
  match acct with
  | .pending => { bal with pending := bal.pending + amount }
  | .settling => { bal with settling := bal.settling + amount }
  | .available => { bal with available := bal.available + amount }
  | .funded => { bal with funded := bal.funded + amount }
  | _ => bal

/-- Body of the entry loop of GetMerchantBalance from ledger.go. -/
def balStep (m : String) (bal : Balance) (e : LedgerEntry) : Balance :=
  if e.merchantID = m then
    match e.entryType with
    | .credit => addToAccount bal e.account e.amount
    | .debit => addToAccount bal e.account (-e.amount)
  else bal

/-- GetMerchantBalance from ledger.go. -/
def GetMerchantBalance (l : Ledger) (m : String) : Balance :=
  l.entries.foldl (balStep m)
    { merchantID := m, pending := 0, settling := 0, available := 0, funded := 0 }

/-- Body of the entry loop of GetSystemBalance (no merchant filter). -/
def sysStep (bal : Balance) (e : LedgerEntry) : Balance :=
  match e.entryType with
  | .credit => addToAccount bal e.account e.amount
  | .debit => addToAccount bal e.account (-e.amount)

/-- Modelled from the spec: GetSystemBalance is absent from src/ (only
ledger_test.go calls it).  Per spec section 4.5 it replays the Entry Log with
no merchant filter and for each of the four tracked accounts sums credit
amounts minus debit amounts; the merchant id of the returned balance is
empty for the system-wide balance (models.go comment on Balance). -/
def GetSystemBalance (l : Ledger) : Balance :=
  l.entries.foldl sysStep
    { merchantID := "", pending := 0, settling := 0, available := 0, funded := 0 }

/-- One call of any of the four engine operations, with any arguments. -/
inductive EngineStep : Ledger → Ledger → Prop where
  | auth (l : Ledger) (t : Transaction) : EngineStep l (RecordAuthorization l t).1
  | settleFile (l : Ledger) (f : SettlementFile) :
      EngineStep l (ProcessSettlementFile l f).1
  | reconcile (l : Ledger) (a : Int) (d : Date) :
      EngineStep l (ReconcileBankDeposit l a d).1
  | payout (l : Ledger) (pf : String → Int → Option String) (ord : List String) :
      ValidOrder l ord → EngineStep l (ExecutePayoutBatch l pf ord).1

/-- States reachable from a fresh ledger by any sequence of the four engine
operations (failed calls leave the state unchanged and are covered too). -/
inductive Reachable : Ledger → Prop where
  | init : Reachable NewLedger
  | step (l l₂ : Ledger) : Reachable l → EngineStep l l₂ → Reachable l₂

/-! ### Derived sums over the state -/

/-- Signed value of one entry: credits count positively, debits negatively
(the direction GetMerchantBalance applies via addToAccount). -/
def entrySigned (e : LedgerEntry) : Int :=
  match e.entryType with
  | .credit => e.amount
  | .debit => -e.amount

/-- Membership of an account in the three balances named by the conservation
property: Pending, Settling, Available. -/
def inPSA : Account → Bool
  | .pending => true
  | .settling => true
  | .available => true
  | _ => false

/-- Contribution of one entry to Pending + Settling + Available. -/
def trackedVal (e : LedgerEntry) : Int :=
  if inPSA e.account then entrySigned e else 0

/-- Pending + Settling + Available summed over a whole entry list. -/
def trackedSum (es : List LedgerEntry) : Int := (es.map trackedVal).sum

/-- Contribution of one transaction to the authorized-but-not-yet-Funded
total. -/
def authVal (t : Transaction) : Int :=
  if t.status = .funded then 0 else t.amount

/-- Authorized-but-not-yet-Funded total over a transaction table. -/
def authSum (txns : List (String × Transaction)) : Int :=
  (txns.map (fun kt => authVal kt.2)).sum

/-- The sum the conservation claim speaks about: authorized amounts of all
transactions whose status is not Funded. -/
def authNonFundedSum (l : Ledger) : Int :=
  ((l.transactions.filter (fun kt => decide (kt.2.status ≠ .funded))).map
    (fun kt => kt.2.amount)).sum

/-- Merchant ids occurring in the entry log. -/
def merchantFinset (es : List LedgerEntry) : Finset String :=
  (es.map (fun e => e.merchantID)).toFinset

/-- Contribution of one entry to the merchant-`m` balance of account `a`. -/
def mval (m : String) (a : Account) (e : LedgerEntry) : Int :=
  if e.merchantID = m ∧ e.account = a then entrySigned e else 0

/-- Merchant-`m` balance of account `a` over an entry list. -/
def msum (m : String) (a : Account) (es : List LedgerEntry) : Int :=
  (es.map (mval m a)).sum

/-- Contribution of one entry to merchant `m` over the PSA accounts. -/
def mtrackedVal (m : String) (e : LedgerEntry) : Int :=
  if e.merchantID = m then trackedVal e else 0

/-- Pending + Settling + Available of merchant `m` over an entry list. -/
def mtrackedSum (m : String) (es : List LedgerEntry) : Int :=
  (es.map (mtrackedVal m)).sum

/-! ### Association-list lemmas -/

theorem lookupKey_setKey (k j : String) (v : α) (xs : List (String × α)) :
    lookupKey k (setKey j v xs) = if j = k then some v else lookupKey k xs := by
  induction xs with
  | nil => by_cases h : j = k <;> simp [setKey, lookupKey, h]
  | cons hd tl ih =>
    obtain ⟨k₂, v₂⟩ := hd
    by_cases h₂ : k₂ = j
    · subst h₂
      by_cases h : k₂ = k <;> simp [setKey, lookupKey, h, ih]
    · by_cases h : k₂ = k
      · subst h
        have : ¬ j = k₂ := fun he => h₂ he.symm
        simp [setKey, lookupKey, h₂, this]
      · simp [setKey, lookupKey, h₂, h, ih]

theorem setKey_absent (k : String) (v : α) (xs : List (String × α))
    (h : lookupKey k xs = none) : setKey k v xs = xs ++ [(k, v)] := by
  induction xs with
  | nil => simp [setKey]
  | cons hd tl ih =>
    obtain ⟨k₂, v₂⟩ := hd
    by_cases h₂ : k₂ = k
    · simp [lookupKey, h₂] at h
    · simp [lookupKey, h₂] at h
      simp [setKey, h₂, ih h]

theorem authSum_setKey (k : String) (v t : Transaction) (xs : List (String × Transaction))
    (h : lookupKey k xs = some t) :
    authSum (setKey k v xs) = authSum xs - authVal t + authVal v := by
  induction xs with
  | nil => simp [lookupKey] at h
  | cons hd tl ih =>
    obtain ⟨k₂, v₂⟩ := hd
    by_cases h₂ : k₂ = k
    · simp [lookupKey, h₂] at h
      subst h
      simp [setKey, h₂, authSum]
      ring
    · simp [lookupKey, h₂] at h
      simp [setKey, h₂, authSum] at ih ⊢
      rw [ih h]
      ring

theorem authSum_append (xs ys : List (String × Transaction)) :
    authSum (xs ++ ys) = authSum xs + authSum ys := by
  simp [authSum]

theorem trackedSum_append (xs ys : List LedgerEntry) :
    trackedSum (xs ++ ys) = trackedSum xs + trackedSum ys := by
  simp [trackedSum]

/-! ### The journal-pair shape of the entry log -/

/-- The entry log of a state with journal counter `n` consists, in order, of
the `n` journal pairs appended so far: each pair shares a journal id, has a
debit half followed by a credit half, and equal amounts. -/
inductive Paired : Nat → List LedgerEntry → Prop where
  | nil : Paired 0 []
  | snoc (n : Nat) (es : List LedgerEntry) (d c : LedgerEntry) :
      Paired n es → d.journalID = n + 1 → c.journalID = n + 1 →
      d.entryType = .debit → c.entryType = .credit → d.amount = c.amount →
      Paired (n + 1) (es ++ [d, c])

theorem Paired.journal_bounds (h : Paired n es) :
    ∀ e ∈ es, 1 ≤ e.journalID ∧ e.journalID ≤ n := by
  induction h with
  | nil => simp
  | snoc n es d c hp hd hc hdt hct hamt ih =>
    intro e he
    rcases List.mem_append.1 he with h₁ | h₂
    · have := ih e h₁
      omega
    · simp at h₂
      rcases h₂ with rfl | rfl <;> omega

theorem Paired.filter_pair (h : Paired n es) :
    ∀ j, 1 ≤ j → j ≤ n →
      ∃ d c, es.filter (fun e => decide (e.journalID = j)) = [d, c] ∧
        d.entryType = .debit ∧ c.entryType = .credit ∧ d.amount = c.amount := by
  induction h with
  | nil => intro j h₁ h₂; omega
  | snoc n es d c hp hd hc hdt hct hamt ih =>
    intro j h₁ h₂
    rw [List.filter_append]
    by_cases hj : j ≤ n
    · obtain ⟨d₂, c₂, hfil, hprops⟩ := ih j h₁ hj
      refine ⟨d₂, c₂, ?_, hprops⟩
      rw [hfil]
      have hdj : ¬ d.journalID = j := by omega
      have hcj : ¬ c.journalID = j := by omega
      simp [hdj, hcj]
    · have hj₂ : j = n + 1 := by omega
      subst hj₂
      have hfil : es.filter (fun e => decide (e.journalID = n + 1)) = [] := by
        rw [List.filter_eq_nil_iff]
        intro e he
        have := hp.journal_bounds e he
        simp
        omega
      refine ⟨d, c, ?_, hdt, hct, hamt⟩
      rw [hfil]
      simp [hd, hc]

/-! ### Lemmas about addEntryRaw -/

/-- The debit half appended by addEntryRaw at journal counter `n`. -/
def pairDebit (n : Nat) (tid mid : String) (da : Account) (amt : Int)
    (ref : String) : LedgerEntry :=
  { id := 2 * (n + 1) - 1, journalID := n + 1, transactionID := tid,
    merchantID := mid, account := da, entryType := .debit, amount := amt,
    reference := ref }

/-- The credit half appended by addEntryRaw at journal counter `n`. -/
def pairCredit (n : Nat) (tid mid : String) (ca : Account) (amt : Int)
    (ref : String) : LedgerEntry :=
  { id := 2 * (n + 1), journalID := n + 1, transactionID := tid,
    merchantID := mid, account := ca, entryType := .credit, amount := amt,
    reference := ref }

theorem addEntryRaw_entries (es : List LedgerEntry) (n : Nat) (tid mid : String)
    (da ca : Account) (amt : Int) (ref : String) :
    (addEntryRaw es n tid mid da ca amt ref).1 =
      es ++ [pairDebit n tid mid da amt ref, pairCredit n tid mid ca amt ref] := rfl

theorem addEntryRaw_counter (es : List LedgerEntry) (n : Nat) (tid mid : String)
    (da ca : Account) (amt : Int) (ref : String) :
    (addEntryRaw es n tid mid da ca amt ref).2 = n + 1 := rfl

theorem trackedSum_addEntryRaw (es : List LedgerEntry) (n : Nat) (tid mid : String)
    (da ca : Account) (amt : Int) (ref : String) :
    trackedSum (addEntryRaw es n tid mid da ca amt ref).1 =
      trackedSum es + ((if inPSA ca then amt else 0) - (if inPSA da then amt else 0)) := by
  rw [addEntryRaw_entries, trackedSum_append]
  by_cases h₁ : inPSA da <;> by_cases h₂ : inPSA ca <;>
    simp [trackedSum, trackedVal, entrySigned, pairDebit, pairCredit, h₁, h₂]

theorem paired_addEntryRaw (es : List LedgerEntry) (n : Nat) (tid mid : String)
    (da ca : Account) (amt : Int) (ref : String) (h : Paired n es) :
    Paired (addEntryRaw es n tid mid da ca amt ref).2
      (addEntryRaw es n tid mid da ca amt ref).1 :=
  Paired.snoc n es _ _ h rfl rfl rfl rfl rfl

/-! ### Lemmas about sweep -/

theorem sweep_cons_pos (pred : Transaction → Bool) (ns : TransactionStatus)
    (da ca : Account) (ref : String) (k : String) (t : Transaction)
    (rest : List (String × Transaction)) (es : List LedgerEntry) (n : Nat)
    (hp : pred t = true) :
    sweep pred ns da ca ref ((k, t) :: rest) es n =
      (((k, { t with status := ns }) ::
          (sweep pred ns da ca ref rest
            (addEntryRaw es n t.transactionID t.merchantID da ca t.amount ref).1
            (addEntryRaw es n t.transactionID t.merchantID da ca t.amount ref).2).1),
        (sweep pred ns da ca ref rest
            (addEntryRaw es n t.transactionID t.merchantID da ca t.amount ref).1
            (addEntryRaw es n t.transactionID t.merchantID da ca t.amount ref).2).2.1,
        (sweep pred ns da ca ref rest
            (addEntryRaw es n t.transactionID t.merchantID da ca t.amount ref).1
            (addEntryRaw es n t.transactionID t.merchantID da ca t.amount ref).2).2.2) := by
  simp only [sweep, hp, if_pos]

theorem sweep_cons_neg (pred : Transaction → Bool) (ns : TransactionStatus)
    (da ca : Account) (ref : String) (k : String) (t : Transaction)
    (rest : List (String × Transaction)) (es : List LedgerEntry) (n : Nat)
    (hp : ¬ pred t = true) :
    sweep pred ns da ca ref ((k, t) :: rest) es n =
      (((k, t) :: (sweep pred ns da ca ref rest es n).1),
        (sweep pred ns da ca ref rest es n).2.1,
        (sweep pred ns da ca ref rest es n).2.2) := by
  simp only [sweep, hp, if_neg, if_false, Bool.false_eq_true]

theorem sweep_lookup (pred : Transaction → Bool) (ns : TransactionStatus)
    (da ca : Account) (ref : String) (k : String) :
    ∀ (txns : List (String × Transaction)) (es : List LedgerEntry) (n : Nat),
      lookupKey k (sweep pred ns da ca ref txns es n).1 =
        (lookupKey k txns).map (fun t => if pred t then { t with status := ns } else t) := by
  intro txns
  induction txns with
  | nil => intro es n; simp [sweep, lookupKey]
  | cons hd rest ih =>
    intro es n
    obtain ⟨k₂, t⟩ := hd
    by_cases hp : pred t
    · rw [sweep_cons_pos pred ns da ca ref k₂ t rest es n hp]
      by_cases hk : k₂ = k <;> simp [lookupKey, hk, hp, ih]
    · rw [sweep_cons_neg pred ns da ca ref k₂ t rest es n hp]
      by_cases hk : k₂ = k <;> simp [lookupKey, hk, hp, ih]

theorem sweep_entries_suffix (pred : Transaction → Bool) (ns : TransactionStatus)
    (da ca : Account) (ref : String) :
    ∀ (txns : List (String × Transaction)) (es : List LedgerEntry) (n : Nat),
      ∃ Δ, (sweep pred ns da ca ref txns es n).2.1 = es ++ Δ ∧
        ∀ e ∈ Δ, ∃ kt ∈ txns, pred kt.2 = true ∧ e.merchantID = kt.2.merchantID := by
  intro txns
  induction txns with
  | nil => intro es n; exact ⟨[], by simp [sweep], by simp⟩
  | cons hd rest ih =>
    intro es n
    obtain ⟨k₂, t⟩ := hd
    by_cases hp : pred t
    · obtain ⟨Δ, hΔ, hmem⟩ := ih
        (addEntryRaw es n t.transactionID t.merchantID da ca t.amount ref).1
        (addEntryRaw es n t.transactionID t.merchantID da ca t.amount ref).2
      refine ⟨pairDebit n t.transactionID t.merchantID da t.amount ref ::
        pairCredit n t.transactionID t.merchantID ca t.amount ref :: Δ, ?_, ?_⟩
      · rw [sweep_cons_pos pred ns da ca ref k₂ t rest es n hp]
        dsimp only
        rw [hΔ, addEntryRaw_entries]
        simp
      · intro e he
        simp only [List.mem_cons] at he
        rcases he with rfl | rfl | h₂
        · exact ⟨(k₂, t), by simp, hp, rfl⟩
        · exact ⟨(k₂, t), by simp, hp, rfl⟩
        · obtain ⟨kt, hkt, hpkt, hme⟩ := hmem e h₂
          exact ⟨kt, List.mem_cons_of_mem _ hkt, hpkt, hme⟩
    · obtain ⟨Δ, hΔ, hmem⟩ := ih es n
      rw [sweep_cons_neg pred ns da ca ref k₂ t rest es n hp]
      refine ⟨Δ, hΔ, ?_⟩
      intro e he
      obtain ⟨kt, hkt, hpkt, hme⟩ := hmem e he
      exact ⟨kt, List.mem_cons_of_mem _ hkt, hpkt, hme⟩

theorem sweep_paired (pred : Transaction → Bool) (ns : TransactionStatus)
    (da ca : Account) (ref : String) :
    ∀ (txns : List (String × Transaction)) (es : List LedgerEntry) (n : Nat),
      Paired n es →
      Paired (sweep pred ns da ca ref txns es n).2.2
        (sweep pred ns da ca ref txns es n).2.1 := by
  intro txns
  induction txns with
  | nil => intro es n h; simpa [sweep] using h
  | cons hd rest ih =>
    intro es n h
    obtain ⟨k₂, t⟩ := hd
    by_cases hp : pred t
    · rw [sweep_cons_pos pred ns da ca ref k₂ t rest es n hp]
      exact ih _ _ (paired_addEntryRaw es n t.transactionID t.merchantID da ca t.amount ref h)
    · rw [sweep_cons_neg pred ns da ca ref k₂ t rest es n hp]
      exact ih es n h

theorem sweep_conserve (pred : Transaction → Bool) (ns : TransactionStatus)
    (da ca : Account) (ref : String)
    (hpred : ∀ t, pred t = true →
      authVal { t with status := ns } =
        authVal t + ((if inPSA ca then t.amount else 0) - (if inPSA da then t.amount else 0))) :
    ∀ (txns : List (String × Transaction)) (es : List LedgerEntry) (n : Nat),
      authSum (sweep pred ns da ca ref txns es n).1 + trackedSum es =
        authSum txns + trackedSum (sweep pred ns da ca ref txns es n).2.1 := by
  intro txns
  induction txns with
  | nil => intro es n; simp [sweep]
  | cons hd rest ih =>
    intro es n
    obtain ⟨k₂, t⟩ := hd
    by_cases hp : pred t
    · rw [sweep_cons_pos pred ns da ca ref k₂ t rest es n hp]
      have hih := ih (addEntryRaw es n t.transactionID t.merchantID da ca t.amount ref).1
        (addEntryRaw es n t.transactionID t.merchantID da ca t.amount ref).2
      have htr := trackedSum_addEntryRaw es n t.transactionID t.merchantID da ca t.amount ref
      have heq := hpred t hp
      dsimp only
      simp only [authSum, List.map_cons, List.sum_cons] at hih ⊢
      linarith
    · rw [sweep_cons_neg pred ns da ca ref k₂ t rest es n hp]
      have hih := ih es n
      dsimp only
      simp only [authSum, List.map_cons, List.sum_cons] at hih ⊢
      linarith

/-! ### Lemmas about the settlement row loop -/

theorem settleRow_total (d : Date) (acc : SettleAcc) (row : SettlementRow) :
    (settleRow d acc row).total = acc.total + row.amount := by
  cases href : lookupKey row.processorRefID acc.ledger.refIndex with
  | none => simp [settleRow, href]
  | some txnID =>
    cases htxn : lookupKey txnID acc.ledger.transactions with
    | none => simp [settleRow, href, htxn]
    | some txn =>
      by_cases hst : txn.status = .pending <;> simp [settleRow, href, htxn, hst]

theorem settleFold_total (d : Date) :
    ∀ (rows : List SettlementRow) (acc : SettleAcc),
      (rows.foldl (settleRow d) acc).total = acc.total + (rows.map (fun r => r.amount)).sum := by
  intro rows
  induction rows with
  | nil => intro acc; simp
  | cons row rest ih =>
    intro acc
    simp only [List.foldl_cons, List.map_cons, List.sum_cons]
    rw [ih, settleRow_total]
    ring

theorem settleRow_conserve (d : Date) (acc : SettleAcc) (row : SettlementRow) :
    authSum (settleRow d acc row).ledger.transactions + trackedSum acc.ledger.entries =
      authSum acc.ledger.transactions + trackedSum (settleRow d acc row).ledger.entries := by
  cases href : lookupKey row.processorRefID acc.ledger.refIndex with
  | none => simp [settleRow, href]
  | some txnID =>
    cases htxn : lookupKey txnID acc.ledger.transactions with
    | none => simp [settleRow, href, htxn]
    | some txn =>
      by_cases hst : txn.status = .pending
      · simp only [settleRow, href, htxn, hst]
        dsimp [Ledger.addEntry]
        rw [authSum_setKey txnID _ txn _ htxn, trackedSum_addEntryRaw]
        have h₁ : authVal { txn with status := .settling, settlementDate := d } = txn.amount := by
          simp [authVal]
        have h₂ : authVal txn = txn.amount := by simp [authVal, hst]
        simp only [inPSA] at *
        rw [h₁, h₂]
        ring
      · simp [settleRow, href, htxn, hst]

theorem settleFold_conserve (d : Date) :
    ∀ (rows : List SettlementRow) (acc : SettleAcc),
      authSum ((rows.foldl (settleRow d) acc)).ledger.transactions +
          trackedSum acc.ledger.entries =
        authSum acc.ledger.transactions +
          trackedSum ((rows.foldl (settleRow d) acc)).ledger.entries := by
  intro rows
  induction rows with
  | nil => intro acc; simp
  | cons row rest ih =>
    intro acc
    simp only [List.foldl_cons]
    have hstep := settleRow_conserve d acc row
    have hih := ih (settleRow d acc row)
    linarith

theorem settleRow_paired (d : Date) (acc : SettleAcc) (row : SettlementRow)
    (h : Paired acc.ledger.nextEntryID acc.ledger.entries) :
    Paired (settleRow d acc row).ledger.nextEntryID (settleRow d acc row).ledger.entries := by
  cases href : lookupKey row.processorRefID acc.ledger.refIndex with
  | none => simpa [settleRow, href] using h
  | some txnID =>
    cases htxn : lookupKey txnID acc.ledger.transactions with
    | none => simpa [settleRow, href, htxn] using h
    | some txn =>
      by_cases hst : txn.status = .pending
      · simp only [settleRow, href, htxn, hst]
        dsimp [Ledger.addEntry]
        exact paired_addEntryRaw _ _ _ _ _ _ _ _ h
      · simpa [settleRow, href, htxn, hst] using h

theorem settleFold_paired (d : Date) :
    ∀ (rows : List SettlementRow) (acc : SettleAcc),
      Paired acc.ledger.nextEntryID acc.ledger.entries →
      Paired ((rows.foldl (settleRow d) acc)).ledger.nextEntryID
        ((rows.foldl (settleRow d) acc)).ledger.entries := by
  intro rows
  induction rows with
  | nil => intro acc h; simpa using h
  | cons row rest ih =>
    intro acc h
    simp only [List.foldl_cons]
    exact ih (settleRow d acc row) (settleRow_paired d acc row h)

/-! ### Conservation across each operation -/

theorem auth_conserve (l : Ledger) (txn : Transaction) :
    authSum (RecordAuthorization l txn).1.transactions + trackedSum l.entries =
      authSum l.transactions + trackedSum (RecordAuthorization l txn).1.entries := by
  unfold RecordAuthorization
  by_cases h₁ : txn.transactionID = ""
  · simp [h₁]
  by_cases h₂ : txn.merchantID = ""
  · simp [h₁, h₂]
  by_cases h₃ : txn.amount ≤ 0
  · simp [h₁, h₂, h₃]
  by_cases h₄ : txn.processorRefID = ""
  · simp [h₁, h₂, h₃, h₄]
  cases hdup : lookupKey txn.transactionID l.transactions with
  | some t₀ => simp [h₁, h₂, h₃, h₄, hdup]
  | none =>
    simp only [h₁, h₂, h₃, h₄, hdup, if_false]
    dsimp [Ledger.addEntry]
    rw [setKey_absent _ _ _ hdup, authSum_append, trackedSum_addEntryRaw]
    simp only [authSum, authVal, inPSA, List.map_cons, List.map_nil, List.sum_cons,
      List.sum_nil]
    simp
    ring

theorem settleFile_conserve (l : Ledger) (f : SettlementFile) :
    authSum (ProcessSettlementFile l f).1.transactions + trackedSum l.entries =
      authSum l.transactions + trackedSum (ProcessSettlementFile l f).1.entries := by
  unfold ProcessSettlementFile
  by_cases h₁ : f.fileID = ""
  · simp [h₁]
  by_cases h₂ : f.fileID ∈ l.processedFiles
  · simp [h₁, h₂]
  simp only [h₁, h₂, if_false]
  exact settleFold_conserve f.date f.rows
    { ledger := l
      result := { matched := 0, unmatched := 0, alreadySettled := 0, unmatchedRows := [] }
      total := 0 }

theorem reconcile_conserve (l : Ledger) (a : Int) (d : Date) :
    authSum (ReconcileBankDeposit l a d).1.transactions + trackedSum l.entries =
      authSum l.transactions + trackedSum (ReconcileBankDeposit l a d).1.entries := by
  unfold ReconcileBankDeposit
  cases hlk : lookupKey d l.settlementTotals with
  | none => simp [hlk]
  | some exp =>
    by_cases hne : a ≠ exp
    · simp [hlk, hne]
    · simp only [hlk, hne, if_false]
      apply sweep_conserve
      intro t hpt
      rw [decide_eq_true_eq] at hpt
      simp [authVal, hpt.1, inPSA]

theorem payoutStep_conserve (avail : String → Int) (pf : String → Int → Option String)
    (acc : Ledger × List PayoutResult) (m : String) :
    authSum (payoutStep avail pf acc m).1.transactions + trackedSum acc.1.entries =
      authSum acc.1.transactions + trackedSum (payoutStep avail pf acc m).1.entries := by
  unfold payoutStep
  by_cases hle : avail m ≤ 0
  · simp [hle]
  cases hpf : pf m (avail m) with
  | some e => simp [hle, hpf]
  | none =>
    simp only [hle, hpf, if_false]
    apply sweep_conserve
    intro t hpt
    rw [decide_eq_true_eq] at hpt
    simp [authVal, hpt.2, inPSA]

theorem payoutFold_conserve (avail : String → Int) (pf : String → Int → Option String) :
    ∀ (ord : List String) (acc : Ledger × List PayoutResult),
      authSum ((ord.foldl (payoutStep avail pf) acc)).1.transactions +
          trackedSum acc.1.entries =
        authSum acc.1.transactions +
          trackedSum ((ord.foldl (payoutStep avail pf) acc)).1.entries := by
  intro ord
  induction ord with
  | nil => intro acc; simp
  | cons m rest ih =>
    intro acc
    simp only [List.foldl_cons]
    have hstep := payoutStep_conserve avail pf acc m
    have hih := ih (payoutStep avail pf acc m)
    linarith

/-- Conservation invariant at the log level: the authorized-but-not-Funded
total over the transaction table equals the signed Pending + Settling +
Available sum over the entry log, in every reachable state. -/
theorem reach_conserve (l : Ledger) (h : Reachable l) :
    authSum l.transactions = trackedSum l.entries := by
  induction h with
  | init => rfl
  | step l₀ l₂ hr hstep ih =>
    cases hstep with
    | auth t => have := auth_conserve l₀ t; linarith
    | settleFile f => have := settleFile_conserve l₀ f; linarith
    | reconcile a d => have := reconcile_conserve l₀ a d; linarith
    | payout pf ord hord =>
      have := payoutFold_conserve (availableOf l₀) pf ord (l₀, [])
      simp only [ExecutePayoutBatch]
      dsimp only at this
      linarith

/-! ### The pairing invariant across each operation -/

theorem auth_paired (l : Ledger) (txn : Transaction)
    (h : Paired l.nextEntryID l.entries) :
    Paired (RecordAuthorization l txn).1.nextEntryID
      (RecordAuthorization l txn).1.entries := by
  unfold RecordAuthorization
  by_cases h₁ : txn.transactionID = ""
  · simpa [h₁] using h
  by_cases h₂ : txn.merchantID = ""
  · simpa [h₁, h₂] using h
  by_cases h₃ : txn.amount ≤ 0
  · simpa [h₁, h₂, h₃] using h
  by_cases h₄ : txn.processorRefID = ""
  · simpa [h₁, h₂, h₃, h₄] using h
  cases hdup : lookupKey txn.transactionID l.transactions with
  | some t₀ => simpa [h₁, h₂, h₃, h₄, hdup] using h
  | none =>
    simp only [h₁, h₂, h₃, h₄, hdup, if_false]
    exact paired_addEntryRaw _ _ _ _ _ _ _ _ h

theorem settleFile_paired (l : Ledger) (f : SettlementFile)
    (h : Paired l.nextEntryID l.entries) :
    Paired (ProcessSettlementFile l f).1.nextEntryID
      (ProcessSettlementFile l f).1.entries := by
  unfold ProcessSettlementFile
  by_cases h₁ : f.fileID = ""
  · simpa [h₁] using h
  by_cases h₂ : f.fileID ∈ l.processedFiles
  · simpa [h₁, h₂] using h
  simp only [h₁, h₂, if_false]
  exact settleFold_paired f.date f.rows
    { ledger := l
      result := { matched := 0, unmatched := 0, alreadySettled := 0, unmatchedRows := [] }
      total := 0 } h

theorem reconcile_paired (l : Ledger) (a : Int) (d : Date)
    (h : Paired l.nextEntryID l.entries) :
    Paired (ReconcileBankDeposit l a d).1.nextEntryID
      (ReconcileBankDeposit l a d).1.entries := by
  unfold ReconcileBankDeposit
  cases hlk : lookupKey d l.settlementTotals with
  | none => simpa [hlk] using h
  | some exp =>
    by_cases hne : a ≠ exp
    · simpa [hlk, hne] using h
    · simp only [hlk, hne, if_false]
      exact sweep_paired _ _ _ _ _ _ _ _ h

theorem payoutStep_paired (avail : String → Int) (pf : String → Int → Option String)
    (acc : Ledger × List PayoutResult) (m : String)
    (h : Paired acc.1.nextEntryID acc.1.entries) :
    Paired (payoutStep avail pf acc m).1.nextEntryID
      (payoutStep avail pf acc m).1.entries := by
  unfold payoutStep
  by_cases hle : avail m ≤ 0
  · simpa [hle] using h
  cases hpf : pf m (avail m) with
  | some e => simpa [hle, hpf] using h
  | none =>
    simp only [hle, hpf, if_false]
    exact sweep_paired _ _ _ _ _ _ _ _ h

theorem payoutFold_paired (avail : String → Int) (pf : String → Int → Option String) :
    ∀ (ord : List String) (acc : Ledger × List PayoutResult),
      Paired acc.1.nextEntryID acc.1.entries →
      Paired ((ord.foldl (payoutStep avail pf) acc)).1.nextEntryID
        ((ord.foldl (payoutStep avail pf) acc)).1.entries := by
  intro ord
  induction ord with
  | nil => intro acc h; simpa using h
  | cons m rest ih =>
    intro acc h
    simp only [List.foldl_cons]
    exact ih (payoutStep avail pf acc m) (payoutStep_paired avail pf acc m h)

/-- Pairing invariant: in every reachable state the entry log is exactly the
ordered sequence of journal pairs appended so far. -/
theorem reach_paired (l : Ledger) (h : Reachable l) :
    Paired l.nextEntryID l.entries := by
  induction h with
  | init => exact Paired.nil
  | step l₀ l₂ hr hstep ih =>
    cases hstep with
    | auth t => exact auth_paired l₀ t ih
    | settleFile f => exact settleFile_paired l₀ f ih
    | reconcile a d => exact reconcile_paired l₀ a d ih
    | payout pf ord hord =>
      have := payoutFold_paired (availableOf l₀) pf ord (l₀, []) ih
      simpa [ExecutePayoutBatch] using this

/-! ### Characterizing the balance calculator -/

theorem msum_cons (m : String) (a : Account) (e : LedgerEntry) (es : List LedgerEntry) :
    msum m a (e :: es) = mval m a e + msum m a es := by
  simp [msum]

theorem balStep_merchantID (m : String) (bal : Balance) (e : LedgerEntry) :
    (balStep m bal e).merchantID = bal.merchantID := by
  by_cases hm : e.merchantID = m <;> cases he : e.entryType <;> cases ha : e.account <;>
    simp [balStep, addToAccount, hm, he, ha]

theorem balStep_pending (m : String) (bal : Balance) (e : LedgerEntry) :
    (balStep m bal e).pending = bal.pending + mval m .pending e := by
  by_cases hm : e.merchantID = m <;> cases he : e.entryType <;> cases ha : e.account <;>
    simp [balStep, addToAccount, mval, entrySigned, hm, he, ha]

theorem balStep_settling (m : String) (bal : Balance) (e : LedgerEntry) :
    (balStep m bal e).settling = bal.settling + mval m .settling e := by
  by_cases hm : e.merchantID = m <;> cases he : e.entryType <;> cases ha : e.account <;>
    simp [balStep, addToAccount, mval, entrySigned, hm, he, ha]

theorem balStep_available (m : String) (bal : Balance) (e : LedgerEntry) :
    (balStep m bal e).available = bal.available + mval m .available e := by
  by_cases hm : e.merchantID = m <;> cases he : e.entryType <;> cases ha : e.account <;>
    simp [balStep, addToAccount, mval, entrySigned, hm, he, ha]

theorem balStep_funded (m : String) (bal : Balance) (e : LedgerEntry) :
    (balStep m bal e).funded = bal.funded + mval m .funded e := by
  by_cases hm : e.merchantID = m <;> cases he : e.entryType <;> cases ha : e.account <;>
    simp [balStep, addToAccount, mval, entrySigned, hm, he, ha]

theorem foldl_balStep (m : String) :
    ∀ (es : List LedgerEntry) (bal : Balance),
      es.foldl (balStep m) bal =
        { merchantID := bal.merchantID
          pending := bal.pending + msum m .pending es
          settling := bal.settling + msum m .settling es
          available := bal.available + msum m .available es
          funded := bal.funded + msum m .funded es } := by
  intro es
  induction es with
  | nil => intro bal; simp [msum]
  | cons e rest ih =>
    intro bal
    simp only [List.foldl_cons]
    rw [ih, balStep_merchantID, balStep_pending, balStep_settling, balStep_available,
      balStep_funded]
    simp only [msum_cons, Balance.mk.injEq]
    refine ⟨trivial, by ring, by ring, by ring, by ring⟩

theorem GetMerchantBalance_eq (l : Ledger) (m : String) :
    GetMerchantBalance l m =
      { merchantID := m
        pending := msum m .pending l.entries
        settling := msum m .settling l.entries
        available := msum m .available l.entries
        funded := msum m .funded l.entries } := by
  unfold GetMerchantBalance
  rw [foldl_balStep]
  simp

/-- Credit-amount total of account `a` over the merchant-`m` entries, the
formula of the balance claim. -/
def creditSum (m : String) (a : Account) (es : List LedgerEntry) : Int :=
  ((es.filter (fun e =>
    decide (e.merchantID = m ∧ e.entryType = .credit ∧ e.account = a))).map
      (fun e => e.amount)).sum

/-- Debit-amount total of account `a` over the merchant-`m` entries. -/
def debitSum (m : String) (a : Account) (es : List LedgerEntry) : Int :=
  ((es.filter (fun e =>
    decide (e.merchantID = m ∧ e.entryType = .debit ∧ e.account = a))).map
      (fun e => e.amount)).sum

theorem creditSum_cons (m : String) (a : Account) (e : LedgerEntry) (es : List LedgerEntry) :
    creditSum m a (e :: es) =
      (if e.merchantID = m ∧ e.entryType = .credit ∧ e.account = a then e.amount else 0) +
        creditSum m a es := by
  by_cases h : e.merchantID = m ∧ e.entryType = .credit ∧ e.account = a <;>
    simp [creditSum, List.filter_cons, h]

theorem debitSum_cons (m : String) (a : Account) (e : LedgerEntry) (es : List LedgerEntry) :
    debitSum m a (e :: es) =
      (if e.merchantID = m ∧ e.entryType = .debit ∧ e.account = a then e.amount else 0) +
        debitSum m a es := by
  by_cases h : e.merchantID = m ∧ e.entryType = .debit ∧ e.account = a <;>
    simp [debitSum, List.filter_cons, h]

theorem mval_split (m : String) (a : Account) (e : LedgerEntry) :
    mval m a e =
      (if e.merchantID = m ∧ e.entryType = .credit ∧ e.account = a then e.amount else 0) -
        (if e.merchantID = m ∧ e.entryType = .debit ∧ e.account = a then e.amount else 0) := by
  by_cases hm : e.merchantID = m <;> cases he : e.entryType <;> by_cases ha : e.account = a <;>
    simp [mval, entrySigned, hm, he, ha]

theorem msum_eq_credit_sub_debit (m : String) (a : Account) :
    ∀ es, msum m a es = creditSum m a es - debitSum m a es := by
  intro es
  induction es with
  | nil => simp [msum, creditSum, debitSum]
  | cons e rest ih =>
    rw [msum_cons, creditSum_cons, debitSum_cons, mval_split, ih]
    ring

/-! ### Characterizing the system-wide balance -/

/-- Contribution of one entry to the system-wide balance of account `a`. -/
def sval (a : Account) (e : LedgerEntry) : Int :=
  if e.account = a then entrySigned e else 0

/-- System-wide balance of account `a` over an entry list. -/
def ssum (a : Account) (es : List LedgerEntry) : Int := (es.map (sval a)).sum

/-- Credit-amount total of account `a` over all entries. -/
def sysCreditSum (a : Account) (es : List LedgerEntry) : Int :=
  ((es.filter (fun e => decide (e.entryType = .credit ∧ e.account = a))).map
    (fun e => e.amount)).sum

/-- Debit-amount total of account `a` over all entries. -/
def sysDebitSum (a : Account) (es : List LedgerEntry) : Int :=
  ((es.filter (fun e => decide (e.entryType = .debit ∧ e.account = a))).map
    (fun e => e.amount)).sum

theorem sysStep_merchantID (bal : Balance) (e : LedgerEntry) :
    (sysStep bal e).merchantID = bal.merchantID := by
  cases he : e.entryType <;> cases ha : e.account <;>
    simp [sysStep, addToAccount, he, ha]

theorem sysStep_pending (bal : Balance) (e : LedgerEntry) :
    (sysStep bal e).pending = bal.pending + sval .pending e := by
  cases he : e.entryType <;> cases ha : e.account <;>
    simp [sysStep, addToAccount, sval, entrySigned, he, ha]

theorem sysStep_settling (bal : Balance) (e : LedgerEntry) :
    (sysStep bal e).settling = bal.settling + sval .settling e := by
  cases he : e.entryType <;> cases ha : e.account <;>
    simp [sysStep, addToAccount, sval, entrySigned, he, ha]

theorem sysStep_available (bal : Balance) (e : LedgerEntry) :
    (sysStep bal e).available = bal.available + sval .available e := by
  cases he : e.entryType <;> cases ha : e.account <;>
    simp [sysStep, addToAccount, sval, entrySigned, he, ha]

theorem sysStep_funded (bal : Balance) (e : LedgerEntry) :
    (sysStep bal e).funded = bal.funded + sval .funded e := by
  cases he : e.entryType <;> cases ha : e.account <;>
    simp [sysStep, addToAccount, sval, entrySigned, he, ha]

theorem ssum_cons (a : Account) (e : LedgerEntry) (es : List LedgerEntry) :
    ssum a (e :: es) = sval a e + ssum a es := by
  simp [ssum]

theorem foldl_sysStep :
    ∀ (es : List LedgerEntry) (bal : Balance),
      es.foldl sysStep bal =
        { merchantID := bal.merchantID
          pending := bal.pending + ssum .pending es
          settling := bal.settling + ssum .settling es
          available := bal.available + ssum .available es
          funded := bal.funded + ssum .funded es } := by
  intro es
  induction es with
  | nil => intro bal; simp [ssum]
  | cons e rest ih =>
    intro bal
    simp only [List.foldl_cons]
    rw [ih, sysStep_merchantID, sysStep_pending, sysStep_settling, sysStep_available,
      sysStep_funded]
    simp only [ssum_cons, Balance.mk.injEq]
    refine ⟨trivial, by ring, by ring, by ring, by ring⟩

theorem GetSystemBalance_eq (l : Ledger) :
    GetSystemBalance l =
      { merchantID := ""
        pending := ssum .pending l.entries
        settling := ssum .settling l.entries
        available := ssum .available l.entries
        funded := ssum .funded l.entries } := by
  unfold GetSystemBalance
  rw [foldl_sysStep]
  simp

theorem sysCreditSum_cons (a : Account) (e : LedgerEntry) (es : List LedgerEntry) :
    sysCreditSum a (e :: es) =
      (if e.entryType = .credit ∧ e.account = a then e.amount else 0) + sysCreditSum a es := by
  by_cases h : e.entryType = .credit ∧ e.account = a <;>
    simp [sysCreditSum, List.filter_cons, h]

theorem sysDebitSum_cons (a : Account) (e : LedgerEntry) (es : List LedgerEntry) :
    sysDebitSum a (e :: es) =
      (if e.entryType = .debit ∧ e.account = a then e.amount else 0) + sysDebitSum a es := by
  by_cases h : e.entryType = .debit ∧ e.account = a <;>
    simp [sysDebitSum, List.filter_cons, h]

theorem sval_split (a : Account) (e : LedgerEntry) :
    sval a e =
      (if e.entryType = .credit ∧ e.account = a then e.amount else 0) -
        (if e.entryType = .debit ∧ e.account = a then e.amount else 0) := by
  cases he : e.entryType <;> by_cases ha : e.account = a <;>
    simp [sval, entrySigned, he, ha]

theorem ssum_eq_credit_sub_debit (a : Account) :
    ∀ es, ssum a es = sysCreditSum a es - sysDebitSum a es := by
  intro es
  induction es with
  | nil => simp [ssum, sysCreditSum, sysDebitSum]
  | cons e rest ih =>
    rw [ssum_cons, sysCreditSum_cons, sysDebitSum_cons, sval_split, ih]
    ring

/-! ### The conservation partition -/

theorem mtrackedSum_cons (m : String) (e : LedgerEntry) (es : List LedgerEntry) :
    mtrackedSum m (e :: es) = mtrackedVal m e + mtrackedSum m es := by
  simp [mtrackedSum]

theorem mtrackedVal_split (m : String) (e : LedgerEntry) :
    mtrackedVal m e =
      mval m .pending e + mval m .settling e + mval m .available e := by
  by_cases hm : e.merchantID = m <;> cases ha : e.account <;>
    simp [mtrackedVal, trackedVal, mval, inPSA, hm, ha]

theorem mtrackedSum_eq (m : String) :
    ∀ es, mtrackedSum m es =
      msum m .pending es + msum m .settling es + msum m .available es := by
  intro es
  induction es with
  | nil => simp [mtrackedSum, msum]
  | cons e rest ih =>
    rw [mtrackedSum_cons, msum_cons, msum_cons, msum_cons, mtrackedVal_split, ih]
    ring

theorem tracked_partition :
    ∀ (es : List LedgerEntry) (s : Finset String),
      (∀ e ∈ es, e.merchantID ∈ s) →
      (∑ m ∈ s, mtrackedSum m es) = trackedSum es := by
  intro es
  induction es with
  | nil => intro s hs; simp [mtrackedSum, trackedSum]
  | cons e rest ih =>
    intro s hs
    have h₁ : ∀ x ∈ rest, x.merchantID ∈ s := fun x hx => hs x (List.mem_cons_of_mem _ hx)
    have h₂ : e.merchantID ∈ s := hs e (List.mem_cons_self _ _)
    have hsplit : (∑ m ∈ s, mtrackedSum m (e :: rest)) =
        (∑ m ∈ s, mtrackedVal m e) + ∑ m ∈ s, mtrackedSum m rest := by
      rw [← Finset.sum_add_distrib]
      apply Finset.sum_congr rfl
      intro m hm
      rw [mtrackedSum_cons]
    rw [hsplit, ih s h₁]
    have hval : (∑ m ∈ s, mtrackedVal m e) = trackedVal e := by
      simp only [mtrackedVal]
      rw [Finset.sum_ite_eq s e.merchantID (fun _ => trackedVal e), if_pos h₂]
    rw [hval]
    simp [trackedSum]

theorem authNonFundedSum_eq (l : Ledger) : authNonFundedSum l = authSum l.transactions := by
  unfold authNonFundedSum authSum
  induction l.transactions with
  | nil => simp
  | cons kt rest ih =>
    by_cases h : kt.2.status = .funded <;>
      simp [List.filter_cons, authVal, h] at ih ⊢ <;> linarith

/-! ### Witness fixtures: a small concrete reachable state -/

/-- A concrete valid authorization input. -/
def tA : Transaction :=
  { transactionID := "t1", merchantID := "mA", cardNumber := "4242", amount := 5,
    processorRefID := "r1", status := .pending, settlementDate := "" }

/-- The state after authorizing `tA` on a fresh ledger. -/
def lW : Ledger := (RecordAuthorization NewLedger tA).1

/-- `lW` is reachable. -/
theorem lW_reachable : Reachable lW :=
  Reachable.step NewLedger lW Reachable.init (EngineStep.auth NewLedger tA)

/-! ### Claim C1 -/

/-- Claim C1: in every state reachable from a fresh ledger by any sequence of
the four engine operations, the sum of the authorized amounts of all
transactions whose status is not Funded equals the sum, over all merchants
appearing in the entry log, of the Pending, Settling and Available balances
derived from the entry log. -/
theorem conservation_reachable (l : Ledger) (h : Reachable l) :
    authNonFundedSum l =
      ∑ m ∈ merchantFinset l.entries,
        ((GetMerchantBalance l m).pending + (GetMerchantBalance l m).settling +
          (GetMerchantBalance l m).available) := by
  rw [authNonFundedSum_eq, reach_conserve l h]
  have hmem : ∀ e ∈ l.entries, e.merchantID ∈ merchantFinset l.entries := by
    intro e he
    simp only [merchantFinset, List.mem_toFinset, List.mem_map]
    exact ⟨e, he, rfl⟩
  rw [← tracked_partition l.entries (merchantFinset l.entries) hmem]
  apply Finset.sum_congr rfl
  intro m hm
  rw [GetMerchantBalance_eq]
  dsimp only
  rw [mtrackedSum_eq]

/-- Witness for C1: the conservation equation instantiated at the concrete
reachable state `lW`. -/
theorem conservation_reachable_witness :
    authNonFundedSum lW =
      ∑ m ∈ merchantFinset lW.entries,
        ((GetMerchantBalance lW m).pending + (GetMerchantBalance lW m).settling +
          (GetMerchantBalance lW m).available) :=
  conservation_reachable lW lW_reachable

/-! ### Claim C2 -/

/-- Claim C2: in every reachable state, every journal id occurring in the
entry log is carried by exactly two entries, the first a debit and the second
a credit, with equal amounts; since every reachable state is the result of
one of the four engine operations (or the fresh ledger), this holds after
every operation. -/
theorem pairing_reachable (l : Ledger) (h : Reachable l) (j : Nat)
    (hj : j ∈ l.entries.map (fun e => e.journalID)) :
    ∃ d c, l.entries.filter (fun e => decide (e.journalID = j)) = [d, c] ∧
      d.entryType = .debit ∧ c.entryType = .credit ∧ d.amount = c.amount := by
  have hp := reach_paired l h
  obtain ⟨e, he, rfl⟩ := List.mem_map.1 hj
  exact hp.filter_pair e.journalID (hp.journal_bounds e he).1 (hp.journal_bounds e he).2

/-- Witness for C2: the pairing property at the concrete reachable state `lW`
and journal id 1. -/
theorem pairing_reachable_witness :
    ∃ d c, lW.entries.filter (fun e => decide (e.journalID = 1)) = [d, c] ∧
      d.entryType = .debit ∧ c.entryType = .credit ∧ d.amount = c.amount :=
  pairing_reachable lW lW_reachable 1 (by decide)

/-! ### Claim C3 -/

/-- Claim C3: GetMerchantBalance returns, for each of the four tracked
accounts, the credit-amount sum minus the debit-amount sum over exactly the
log entries whose merchant id is the queried one; and GetSystemBalance
(modelled from the spec, see its definition) returns the same four sums with
no merchant filter. -/
theorem balance_derivation (l : Ledger) (m : String) :
    GetMerchantBalance l m =
      { merchantID := m
        pending := creditSum m .pending l.entries - debitSum m .pending l.entries
        settling := creditSum m .settling l.entries - debitSum m .settling l.entries
        available := creditSum m .available l.entries - debitSum m .available l.entries
        funded := creditSum m .funded l.entries - debitSum m .funded l.entries } ∧
    GetSystemBalance l =
      { merchantID := ""
        pending := sysCreditSum .pending l.entries - sysDebitSum .pending l.entries
        settling := sysCreditSum .settling l.entries - sysDebitSum .settling l.entries
        available := sysCreditSum .available l.entries - sysDebitSum .available l.entries
        funded := sysCreditSum .funded l.entries - sysDebitSum .funded l.entries } := by
  constructor
  · rw [GetMerchantBalance_eq]
    simp only [msum_eq_credit_sub_debit]
  · rw [GetSystemBalance_eq]
    simp only [ssum_eq_credit_sub_debit]

/-! ### Claim C4 -/

/-- Claim C4: ReconcileBankDeposit returns NotFoundError exactly when no
settlement total was recorded for the date, MismatchError exactly when a
total exists but differs from the amount, and in every error case the ledger
is returned completely unchanged. -/
theorem reconcile_error_characterization (l : Ledger) (a : Int) (d : Date) :
    ((ReconcileBankDeposit l a d).2 = some (.notFoundError d) ↔
      lookupKey d l.settlementTotals = none) ∧
    ((∃ exp, (ReconcileBankDeposit l a d).2 = some (.mismatchError d exp a)) ↔
      (∃ exp, lookupKey d l.settlementTotals = some exp ∧ a ≠ exp)) ∧
    (∀ e, (ReconcileBankDeposit l a d).2 = some e → (ReconcileBankDeposit l a d).1 = l) := by
  cases hlk : lookupKey d l.settlementTotals with
  | none =>
    refine ⟨by simp [ReconcileBankDeposit, hlk], ?_, ?_⟩
    · simp [ReconcileBankDeposit, hlk]
    · intro e he
      simp [ReconcileBankDeposit, hlk]
  | some exp =>
    by_cases hne : a ≠ exp
    · refine ⟨by simp [ReconcileBankDeposit, hlk, hne], ?_, ?_⟩
      · constructor
        · intro _
          exact ⟨exp, rfl, hne⟩
        · intro _
          exact ⟨exp, by simp [ReconcileBankDeposit, hlk, hne]⟩
      · intro e he
        simp [ReconcileBankDeposit, hlk, hne]
    · push_neg at hne
      subst hne
      refine ⟨by simp [ReconcileBankDeposit, hlk], ?_, ?_⟩
      · constructor
        · intro hex
          obtain ⟨e₂, he₂⟩ := hex
          simp [ReconcileBankDeposit, hlk] at he₂
        · intro hex
          obtain ⟨e₂, he₂, hne₂⟩ := hex
          cases he₂
          exact absurd rfl hne₂
      · intro e he
        simp [ReconcileBankDeposit, hlk] at he

/-- Witness for C4: on the concrete state `lW`, which has no settlement
total recorded, reconciling yields the NotFoundError and leaves the state
unchanged. -/
theorem reconcile_error_characterization_witness :
    (ReconcileBankDeposit lW 999 "2026-02-10").2 = some (.notFoundError "2026-02-10") ∧
    (ReconcileBankDeposit lW 999 "2026-02-10").1 = lW := by
  have h := reconcile_error_characterization lW 999 "2026-02-10"
  have hnf : (ReconcileBankDeposit lW 999 "2026-02-10").2 =
      some (.notFoundError "2026-02-10") := h.1.mpr (by decide)
  exact ⟨hnf, h.2.2 _ hnf⟩

/-! ### Claim C5 -/

/-- Claim C5: once ProcessSettlementFile has succeeded for a file, a second
call with any file carrying the same file id succeeds with zero matched,
unmatched and already-settled counts, an empty unmatched-row list, and
returns the ledger completely unchanged. -/
theorem settlement_idempotent (l l₁ : Ledger) (F F₂ : SettlementFile)
    (r : SettlementFileResult) (h : ProcessSettlementFile l F = (l₁, .ok r))
    (hid : F₂.fileID = F.fileID) :
    ProcessSettlementFile l₁ F₂ =
      (l₁, .ok { matched := 0, unmatched := 0, alreadySettled := 0, unmatchedRows := [] }) := by
  have hne : ¬ F.fileID = "" := by
    intro h₀
    simp [ProcessSettlementFile, h₀] at h
  have hmem : F.fileID ∈ l₁.processedFiles := by
    by_cases h₂ : F.fileID ∈ l.processedFiles
    · have : l = l₁ := by
        simp [ProcessSettlementFile, hne, h₂, Prod.ext_iff] at h
        exact h.1
      rw [← this]
      exact h₂
    · simp only [ProcessSettlementFile, hne, h₂, if_false, Prod.mk.injEq,
        reduceIte] at h
      rw [← h.1]
      exact List.mem_cons_self _ _
  have hne₂ : ¬ F₂.fileID = "" := by rw [hid]; exact hne
  have hmem₂ : F₂.fileID ∈ l₁.processedFiles := by rw [hid]; exact hmem
  simp [ProcessSettlementFile, hne₂, hmem₂]

/-- The result of the first settlement run on `lW`: its one row matches. -/
def fW : SettlementFile :=
  { fileID := "f1", date := "2026-02-10",
    rows := [{ processorRefID := "r1", merchantID := "mA", amount := 5 }] }

/-- The state after processing `fW` on `lW`. -/
def lWS : Ledger := (ProcessSettlementFile lW fW).1

/-- Witness for C5: replaying the concrete file `fW` after its successful
first run is a no-op with the all-zero result. -/
theorem settlement_idempotent_witness :
    ProcessSettlementFile lWS fW =
      (lWS, .ok { matched := 0, unmatched := 0, alreadySettled := 0, unmatchedRows := [] }) :=
  settlement_idempotent lW lWS fW fW
    { matched := 1, unmatched := 0, alreadySettled := 0, unmatchedRows := [] }
    rfl rfl

/-! ### Claim C6 -/

/-- Claim C6: for a settlement file with a non-empty, not-yet-processed file
id, the call succeeds and the expected settlement total recorded for the
file date equals the sum of the amounts of all rows of the file (matched,
unmatched and already-settled alike), overwriting any previously recorded
total for that date. -/
theorem settlement_total_recorded (l : Ledger) (F : SettlementFile)
    (h₁ : F.fileID ≠ "") (h₂ : F.fileID ∉ l.processedFiles) :
    (∃ r, (ProcessSettlementFile l F).2 = .ok r) ∧
    lookupKey F.date (ProcessSettlementFile l F).1.settlementTotals =
      some ((F.rows.map (fun r => r.amount)).sum) := by
  constructor
  · simp only [ProcessSettlementFile, h₁, h₂, if_false, reduceIte]
    exact ⟨_, rfl⟩
  · simp only [ProcessSettlementFile, h₁, h₂, if_false, reduceIte]
    rw [lookupKey_setKey]
    simp only [if_pos rfl, Option.some.injEq]
    have := settleFold_total F.date F.rows
      { ledger := l
        result := { matched := 0, unmatched := 0, alreadySettled := 0, unmatchedRows := [] }
        total := 0 }
    simpa using this

/-- Witness for C6: processing `fW` on `lW` records expected total 5 for its
date. -/
theorem settlement_total_recorded_witness :
    (∃ r, (ProcessSettlementFile lW fW).2 = .ok r) ∧
    lookupKey fW.date (ProcessSettlementFile lW fW).1.settlementTotals =
      some ((fW.rows.map (fun r => r.amount)).sum) :=
  settlement_total_recorded lW fW (by decide) (by decide)

/-! ### Claim C8: status monotonicity -/

/-- The immediate successor along the lifecycle
Pending, Settling, Available, Funded (Funded is terminal). -/
def statusNext : TransactionStatus → TransactionStatus
  | .pending => .settling
  | .settling => .available
  | .available => .funded
  | .funded => .funded

/-- Observable effect of the settlement row loop on one transaction slot:
unchanged, or a Pending transaction became Settling with the file date. -/
def SettleReach (d : Date) (o o₂ : Option Transaction) : Prop :=
  o₂ = o ∨ ∃ t, o = some t ∧ t.status = .pending ∧
    o₂ = some { t with status := .settling, settlementDate := d }

theorem settleReach_trans (d : Date) (o o₁ o₂ : Option Transaction)
    (h₁ : SettleReach d o o₁) (h₂ : SettleReach d o₁ o₂) : SettleReach d o o₂ := by
  rcases h₂ with rfl | ⟨t, rfl, hp, rfl⟩
  · exact h₁
  · rcases h₁ with rfl | ⟨t₀, rfl, hp₀, he⟩
    · exact Or.inr ⟨t, rfl, hp, rfl⟩
    · cases he
      simp at hp

theorem settleRow_reach (d : Date) (acc : SettleAcc) (row : SettlementRow) (k : String) :
    SettleReach d (lookupKey k acc.ledger.transactions)
      (lookupKey k (settleRow d acc row).ledger.transactions) := by
  cases href : lookupKey row.processorRefID acc.ledger.refIndex with
  | none => left; simp [settleRow, href]
  | some txnID =>
    cases htxn : lookupKey txnID acc.ledger.transactions with
    | none => left; simp [settleRow, href, htxn]
    | some txn =>
      by_cases hst : txn.status = .pending
      · simp only [settleRow, href, htxn, hst, ne_eq, not_true_eq_false, if_false,
          reduceIte]
        dsimp [Ledger.addEntry]
        rw [lookupKey_setKey]
        by_cases hk : txnID = k
        · subst hk
          right
          exact ⟨txn, htxn, hst, by simp⟩
        · left
          simp [hk]
      · left
        simp [settleRow, href, htxn, hst]

theorem settleFold_reach (d : Date) :
    ∀ (rows : List SettlementRow) (acc : SettleAcc) (k : String),
      SettleReach d (lookupKey k acc.ledger.transactions)
        (lookupKey k ((rows.foldl (settleRow d) acc)).ledger.transactions) := by
  intro rows
  induction rows with
  | nil => intro acc k; left; rfl
  | cons row rest ih =>
    intro acc k
    simp only [List.foldl_cons]
    exact settleReach_trans d _ _ _ (settleRow_reach d acc row k)
      (ih (settleRow d acc row) k)

/-- Observable effect of the payout batch loop on one transaction slot:
unchanged, or an Available transaction became Funded. -/
def PayReach (o o₂ : Option Transaction) : Prop :=
  o₂ = o ∨ ∃ t, o = some t ∧ t.status = .available ∧ o₂ = some { t with status := .funded }

theorem payReach_trans (o o₁ o₂ : Option Transaction)
    (h₁ : PayReach o o₁) (h₂ : PayReach o₁ o₂) : PayReach o o₂ := by
  rcases h₂ with rfl | ⟨t, rfl, hp, rfl⟩
  · exact h₁
  · rcases h₁ with rfl | ⟨t₀, rfl, hp₀, he⟩
    · exact Or.inr ⟨t, rfl, hp, rfl⟩
    · cases he
      simp at hp

theorem payoutStep_reach (avail : String → Int) (pf : String → Int → Option String)
    (acc : Ledger × List PayoutResult) (m : String) (k : String) :
    PayReach (lookupKey k acc.1.transactions)
      (lookupKey k (payoutStep avail pf acc m).1.transactions) := by
  unfold payoutStep
  by_cases hle : avail m ≤ 0
  · left; simp [hle]
  cases hpf : pf m (avail m) with
  | some e => left; simp [hle, hpf]
  | none =>
    simp only [hle, hpf, if_false, reduceIte]
    rw [sweep_lookup]
    cases ho : lookupKey k acc.1.transactions with
    | none => left; rfl
    | some t =>
      by_cases hp : t.merchantID = m ∧ t.status = .available
      · right
        exact ⟨t, rfl, hp.2, by simp [hp]⟩
      · left
        simp [hp]

theorem payoutFold_reach (avail : String → Int) (pf : String → Int → Option String) :
    ∀ (ord : List String) (acc : Ledger × List PayoutResult) (k : String),
      PayReach (lookupKey k acc.1.transactions)
        (lookupKey k ((ord.foldl (payoutStep avail pf) acc)).1.transactions) := by
  intro ord
  induction ord with
  | nil => intro acc k; left; rfl
  | cons m rest ih =>
    intro acc k
    simp only [List.foldl_cons]
    exact payReach_trans _ _ _ (payoutStep_reach avail pf acc m k)
      (ih (payoutStep avail pf acc m) k)

/-- Claim C8: across any single engine operation, the status of any
transaction present before and after is either unchanged or the immediate
successor along Pending, Settling, Available, Funded; it never regresses and
never skips a step. -/
theorem status_monotonic (l l₂ : Ledger) (h : EngineStep l l₂) (k : String)
    (t t₂ : Transaction) (h₁ : lookupKey k l.transactions = some t)
    (h₂ : lookupKey k l₂.transactions = some t₂) :
    t₂.status = t.status ∨ t₂.status = statusNext t.status := by
  cases h with
  | auth txn =>
    unfold RecordAuthorization at h₂
    by_cases hv₁ : txn.transactionID = ""
    · simp [hv₁, h₁] at h₂; left; rw [h₂]
    by_cases hv₂ : txn.merchantID = ""
    · simp [hv₁, hv₂, h₁] at h₂; left; rw [h₂]
    by_cases hv₃ : txn.amount ≤ 0
    · simp [hv₁, hv₂, hv₃, h₁] at h₂; left; rw [h₂]
    by_cases hv₄ : txn.processorRefID = ""
    · simp [hv₁, hv₂, hv₃, hv₄, h₁] at h₂; left; rw [h₂]
    cases hdup : lookupKey txn.transactionID l.transactions with
    | some t₀ => simp [hv₁, hv₂, hv₃, hv₄, hdup, h₁] at h₂; left; rw [h₂]
    | none =>
      simp only [hv₁, hv₂, hv₃, hv₄, hdup, if_false, reduceIte] at h₂
      dsimp [Ledger.addEntry] at h₂
      rw [lookupKey_setKey] at h₂
      by_cases hk : txn.transactionID = k
      · subst hk; rw [hdup] at h₁; cases h₁
      · rw [if_neg hk, h₁] at h₂
        left
        cases h₂
        rfl
  | settleFile f =>
    unfold ProcessSettlementFile at h₂
    by_cases hv₁ : f.fileID = ""
    · simp [hv₁, h₁] at h₂; left; rw [h₂]
    by_cases hv₂ : f.fileID ∈ l.processedFiles
    · simp [hv₁, hv₂, h₁] at h₂; left; rw [h₂]
    · simp only [hv₁, hv₂, if_false, reduceIte] at h₂
      have hreach := settleFold_reach f.date f.rows
        { ledger := l
          result := { matched := 0, unmatched := 0, alreadySettled := 0, unmatchedRows := [] }
          total := 0 } k
      rcases hreach with he | ⟨t₀, ho, hp, he⟩
      · rw [h₂, h₁] at he
        cases he
        left
        rfl
      · dsimp only at ho he
        rw [h₁] at ho
        cases ho
        rw [h₂] at he
        cases he
        right
        rw [hp]
        rfl
  | reconcile a d =>
    unfold ReconcileBankDeposit at h₂
    cases hlk : lookupKey d l.settlementTotals with
    | none => simp [hlk, h₁] at h₂; left; rw [h₂]
    | some exp =>
      by_cases hne : a ≠ exp
      · simp [hlk, hne, h₁] at h₂; left; rw [h₂]
      · simp only [hlk] at h₂
        rw [if_neg hne] at h₂
        dsimp only at h₂
        rw [sweep_lookup, h₁] at h₂
        simp only [Option.map_some'] at h₂
        by_cases hp : t.status = .settling ∧ t.settlementDate = d
        · rw [if_pos (by simp [hp])] at h₂
          cases h₂
          right
          rw [hp.1]
          rfl
        · rw [if_neg (by simpa using hp)] at h₂
          cases h₂
          left
          rfl
  | payout pf ord hord =>
    have hreach := payoutFold_reach (availableOf l) pf ord (l, []) k
    rcases hreach with he | ⟨t₀, ho, hp, he⟩
    · rw [show (ExecutePayoutBatch l pf ord).1 = (ord.foldl (payoutStep (availableOf l) pf) (l, [])).1 from rfl] at h₂
      rw [h₂, h₁] at he
      cases he
      left
      rfl
    · dsimp only at ho he
      rw [h₁] at ho
      cases ho
      rw [show (ExecutePayoutBatch l pf ord).1 = (ord.foldl (payoutStep (availableOf l) pf) (l, [])).1 from rfl] at h₂
      rw [h₂] at he
      cases he
      right
      rw [hp]
      rfl

/-- The settled form of `tA` after processing `fW`. -/
def tASettled : Transaction :=
  { tA with status := .settling, settlementDate := "2026-02-10" }

/-- Witness for C8: across the concrete settlement step from `lW`, the
status of transaction t1 moves exactly one step forward. -/
theorem status_monotonic_witness :
    tASettled.status = tA.status ∨ tASettled.status = statusNext tA.status :=
  status_monotonic lW lWS (EngineStep.settleFile lW fW) "t1" tA tASettled
    (by decide) (by decide)

/-! ### Claim C10 -/

/-- Claim C10: RecordAuthorization performs no uniqueness check on the
processor reference id: a transaction with a fresh id, valid fields and an
already-indexed reference id succeeds, and the reference index afterwards
maps that reference id to the new transaction (and hence no longer to the
previously indexed one) -- exactly the index ProcessSettlementFile consults
to match settlement rows. -/
theorem refid_remap (l : Ledger) (t₂ : Transaction) (id₁ : String)
    (href : lookupKey t₂.processorRefID l.refIndex = some id₁)
    (hv₁ : t₂.transactionID ≠ "") (hv₂ : t₂.merchantID ≠ "") (hv₃ : 0 < t₂.amount)
    (hv₄ : t₂.processorRefID ≠ "")
    (hfresh : lookupKey t₂.transactionID l.transactions = none) :
    (RecordAuthorization l t₂).2 = none ∧
    lookupKey t₂.processorRefID (RecordAuthorization l t₂).1.refIndex =
      some t₂.transactionID ∧
    (id₁ ≠ t₂.transactionID →
      lookupKey t₂.processorRefID (RecordAuthorization l t₂).1.refIndex ≠ some id₁) := by
  have hv₃' : ¬ t₂.amount ≤ 0 := not_le.mpr hv₃
  simp only [RecordAuthorization, hv₁, hv₂, hv₃', hv₄, hfresh, if_false, reduceIte]
  dsimp [Ledger.addEntry]
  rw [lookupKey_setKey, if_pos rfl]
  refine ⟨trivial, rfl, ?_⟩
  intro hne he
  cases he
  exact hne rfl

/-- A second authorization reusing the reference id r1 of `tA` under a fresh
transaction id. -/
def tDup : Transaction :=
  { transactionID := "t9", merchantID := "mC", cardNumber := "1111", amount := 3,
    processorRefID := "r1", status := .pending, settlementDate := "" }

/-- Witness for C10: authorizing `tDup` on `lW` succeeds and remaps r1 from
t1 to t9. -/
theorem refid_remap_witness :
    (RecordAuthorization lW tDup).2 = none ∧
    lookupKey tDup.processorRefID (RecordAuthorization lW tDup).1.refIndex =
      some tDup.transactionID ∧
    ("t1" ≠ tDup.transactionID →
      lookupKey tDup.processorRefID (RecordAuthorization lW tDup).1.refIndex ≠ some "t1") :=
  refid_remap lW tDup "t1" (by decide) (by decide) (by decide) (by decide) (by decide)
    (by decide)

/-! ### Claim C9: the payout result list as a function of the iteration order -/

/-- The result the merchant loop of ExecutePayoutBatch emits for one
merchant: nothing when the aggregate is not positive, otherwise the
success or failure record determined by the payout capability. -/
def resultFor (avail : String → Int) (pf : String → Int → Option String)
    (m : String) : Option PayoutResult :=
  let amount := avail m
  if amount ≤ 0 then none
  else
    match pf m amount with
    | some e => some { merchantID := m, amount := amount, success := false, error := some e }
    | none => some { merchantID := m, amount := amount, success := true, error := none }

theorem payoutStep_results (avail : String → Int) (pf : String → Int → Option String)
    (acc : Ledger × List PayoutResult) (m : String) :
    (payoutStep avail pf acc m).2 = acc.2 ++ (resultFor avail pf m).toList := by
  unfold payoutStep resultFor
  by_cases hle : avail m ≤ 0
  · simp [hle]
  cases hpf : pf m (avail m) with
  | some e => simp [hle, hpf]
  | none => simp [hle, hpf]

theorem payoutFold_results (avail : String → Int) (pf : String → Int → Option String) :
    ∀ (ord : List String) (acc : Ledger × List PayoutResult),
      (ord.foldl (payoutStep avail pf) acc).2 =
        acc.2 ++ ord.filterMap (resultFor avail pf) := by
  intro ord
  induction ord with
  | nil => intro acc; simp
  | cons m rest ih =>
    intro acc
    simp only [List.foldl_cons]
    rw [ih (payoutStep avail pf acc m), payoutStep_results]
    cases hr : resultFor avail pf m with
    | none => simp [List.filterMap_cons, hr]
    | some r => simp [List.filterMap_cons, hr]

theorem ExecutePayoutBatch_results (l : Ledger) (pf : String → Int → Option String)
    (ord : List String) :
    (ExecutePayoutBatch l pf ord).2 = ord.filterMap (resultFor (availableOf l) pf) := by
  unfold ExecutePayoutBatch
  rw [payoutFold_results]
  simp

/-- Claim C9 counterexample: a reachable state with two merchants holding
available balances, on which the same payout capability produces result
lists in different orders for two valid iteration orders of the merchant
map -- so equal states do not determine an equal (same-order) result list. -/
def tB : Transaction :=
  { transactionID := "t2", merchantID := "mB", cardNumber := "5555", amount := 7,
    processorRefID := "r2", status := .pending, settlementDate := "" }

/-- Settlement file covering both t1 and t2. -/
def f9 : SettlementFile :=
  { fileID := "f9", date := "2026-02-11",
    rows := [{ processorRefID := "r1", merchantID := "mA", amount := 5 },
             { processorRefID := "r2", merchantID := "mB", amount := 7 }] }

/-- State with both merchants mA and mB holding Available balances. -/
def l9 : Ledger :=
  (ReconcileBankDeposit
    (ProcessSettlementFile ((RecordAuthorization lW tB).1) f9).1 12 "2026-02-11").1

/-- `l9` is reachable. -/
theorem l9_reachable : Reachable l9 :=
  Reachable.step _ l9
    (Reachable.step _ _
      (Reachable.step _ _ lW_reachable (EngineStep.auth lW tB))
      (EngineStep.settleFile _ f9))
    (EngineStep.reconcile _ 12 "2026-02-11")

/-- The always-succeeding payout capability. -/
def pfOk : String → Int → Option String := fun _ _ => none

/-- Counterexample to C9 as stated: from the same (reachable) state `l9`,
with the same capability, two valid iteration orders of the merchant map
yield result lists that are not equal (they differ in order). -/
theorem payout_order_counterexample :
    Reachable l9 ∧
    ValidOrder l9 ["mA", "mB"] ∧ ValidOrder l9 ["mB", "mA"] ∧
    (ExecutePayoutBatch l9 pfOk ["mA", "mB"]).2 ≠
      (ExecutePayoutBatch l9 pfOk ["mB", "mA"]).2 :=
  ⟨l9_reachable, by decide, by decide, by decide⟩

/-- Claim C9 as amended: two calls of ExecutePayoutBatch started from equal
ledger states with the same payout capability, under any two valid merchant
iteration orders, produce result lists that are permutations of each other:
the same merchants with the same attempted amounts and outcomes, though
possibly in different positions. -/
theorem payout_results_perm (l : Ledger) (pf : String → Int → Option String)
    (ord₁ ord₂ : List String) (h₁ : ValidOrder l ord₁) (h₂ : ValidOrder l ord₂) :
    (ExecutePayoutBatch l pf ord₁).2.Perm (ExecutePayoutBatch l pf ord₂).2 := by
  rw [ExecutePayoutBatch_results, ExecutePayoutBatch_results]
  apply List.Perm.filterMap
  rw [List.perm_ext_iff_of_nodup h₁.1 h₂.1]
  intro m
  constructor
  · intro hm; exact h₂.2.2 m (h₁.2.1 m hm)
  · intro hm; exact h₁.2.2 m (h₂.2.1 m hm)

/-- Witness for the amended C9: at the concrete state `l9`, the two result
lists for the orders mA-mB and mB-mA are permutations of each other. -/
theorem payout_results_perm_witness :
    (ExecutePayoutBatch l9 pfOk ["mA", "mB"]).2.Perm
      (ExecutePayoutBatch l9 pfOk ["mB", "mA"]).2 :=
  payout_results_perm l9 pfOk ["mA", "mB"] ["mB", "mA"] (by decide) (by decide)

/-! ### Claim C7: payout failure isolation -/

theorem resultFor_merchantID (avail : String → Int) (pf : String → Int → Option String)
    (m : String) (r : PayoutResult) (h : resultFor avail pf m = some r) :
    r.merchantID = m := by
  unfold resultFor at h
  by_cases hle : avail m ≤ 0
  · simp [hle] at h
  · simp only [hle, if_false, reduceIte] at h
    cases hpf : pf m (avail m) <;> rw [hpf] at h <;> cases h <;> rfl

theorem payoutStep_fail_fixed (avail : String → Int) (pf : String → Int → Option String)
    (m : String) (err : String) (hfail : pf m (avail m) = some err)
    (acc : Ledger × List PayoutResult) (m₂ k : String) (t : Transaction)
    (hk : lookupKey k acc.1.transactions = some t) (hm : t.merchantID = m) :
    lookupKey k (payoutStep avail pf acc m₂).1.transactions = some t := by
  unfold payoutStep
  by_cases hle : avail m₂ ≤ 0
  · simpa [hle] using hk
  cases hpf : pf m₂ (avail m₂) with
  | some e => simpa [hle, hpf] using hk
  | none =>
    have hne : m₂ ≠ m := by
      rintro rfl
      rw [hfail] at hpf
      cases hpf
    simp only [hle, hpf, if_false, reduceIte]
    rw [sweep_lookup, hk]
    have hnp : ¬ (t.merchantID = m₂ ∧ t.status = .available) := by
      rintro ⟨h₀, _⟩
      exact hne (by rw [← h₀, hm])
    simp [hnp]

theorem payoutFold_fail_fixed (avail : String → Int) (pf : String → Int → Option String)
    (m : String) (err : String) (hfail : pf m (avail m) = some err) :
    ∀ (ord : List String) (acc : Ledger × List PayoutResult) (k : String) (t : Transaction),
      lookupKey k acc.1.transactions = some t → t.merchantID = m →
      lookupKey k ((ord.foldl (payoutStep avail pf) acc)).1.transactions = some t := by
  intro ord
  induction ord with
  | nil => intro acc k t hk hm; exact hk
  | cons m₂ rest ih =>
    intro acc k t hk hm
    simp only [List.foldl_cons]
    exact ih (payoutStep avail pf acc m₂) k t
      (payoutStep_fail_fixed avail pf m err hfail acc m₂ k t hk hm) hm

theorem payoutStep_entries (avail : String → Int) (pf : String → Int → Option String)
    (acc : Ledger × List PayoutResult) (m₂ : String) :
    ∃ Δ, (payoutStep avail pf acc m₂).1.entries = acc.1.entries ++ Δ ∧
      ∀ e ∈ Δ, e.merchantID = m₂ ∧ pf m₂ (avail m₂) = none := by
  unfold payoutStep
  by_cases hle : avail m₂ ≤ 0
  · exact ⟨[], by simp [hle], by simp⟩
  cases hpf : pf m₂ (avail m₂) with
  | some e => exact ⟨[], by simp [hle, hpf], by simp⟩
  | none =>
    obtain ⟨Δ, hΔ, hmem⟩ := sweep_entries_suffix
      (fun t => decide (t.merchantID = m₂ ∧ t.status = .available))
      .funded .available .funded "payout"
      acc.1.transactions acc.1.entries acc.1.nextEntryID
    refine ⟨Δ, ?_, ?_⟩
    · simp only [hle, hpf, if_false, reduceIte]
      exact hΔ
    intro e he
    obtain ⟨kt, hkt, hpkt, hme⟩ := hmem e he
    rw [decide_eq_true_eq] at hpkt
    exact ⟨by rw [hme, hpkt.1], rfl⟩

theorem payoutFold_entries_fail (avail : String → Int) (pf : String → Int → Option String)
    (m : String) (err : String) (hfail : pf m (avail m) = some err) :
    ∀ (ord : List String) (acc : Ledger × List PayoutResult),
      ∃ Δ, ((ord.foldl (payoutStep avail pf) acc)).1.entries = acc.1.entries ++ Δ ∧
        ∀ e ∈ Δ, e.merchantID ≠ m := by
  intro ord
  induction ord with
  | nil => intro acc; exact ⟨[], by simp, by simp⟩
  | cons m₂ rest ih =>
    intro acc
    obtain ⟨Δ₀, hΔ₀, hm₀⟩ := payoutStep_entries avail pf acc m₂
    obtain ⟨Δ₁, hΔ₁, hm₁⟩ := ih (payoutStep avail pf acc m₂)
    refine ⟨Δ₀ ++ Δ₁, ?_, ?_⟩
    · simp only [List.foldl_cons]
      rw [hΔ₁, hΔ₀, List.append_assoc]
    · intro e he
      rcases List.mem_append.1 he with h₀ | h₁
      · obtain ⟨hme, hnone⟩ := hm₀ e h₀
        intro hcontra
        rw [hcontra] at hme
        rw [← hme] at hnone
        rw [hfail] at hnone
        cases hnone
      · exact hm₁ e h₁

/-- Two transaction tables agree position-wise on keys and merchant ids, and
agree exactly on every transaction not owned by merchant `m`. -/
def AgreeOff (m : String) (xs ys : List (String × Transaction)) : Prop :=
  List.Forall₂
    (fun a b => a.1 = b.1 ∧ a.2.merchantID = b.2.merchantID ∧
      (a.2.merchantID ≠ m → a.2 = b.2)) xs ys

theorem agreeOff_refl (m : String) (xs : List (String × Transaction)) : AgreeOff m xs xs :=
  List.forall₂_same.mpr (fun _ _ => ⟨rfl, rfl, fun _ => rfl⟩)

theorem agreeOff_lookup (m : String) (xs ys : List (String × Transaction))
    (h : AgreeOff m xs ys) :
    ∀ (k : String) (t : Transaction), lookupKey k xs = some t → t.merchantID ≠ m →
      lookupKey k ys = some t := by
  induction h with
  | nil => intro k t hk; simp [lookupKey] at hk
  | @cons a b as bs hab htail ih =>
    intro k t hk hm
    obtain ⟨k₁, ta⟩ := a
    obtain ⟨k₂, tb⟩ := b
    obtain ⟨hkey, hmerch, heq⟩ := hab
    simp only at hkey hmerch heq
    simp only [lookupKey] at hk ⊢
    by_cases hak : k₁ = k
    · rw [if_pos hak] at hk
      cases hk
      rw [if_pos (by rw [← hkey]; exact hak)]
      rw [heq hm]
    · rw [if_neg hak] at hk
      rw [if_neg (by rw [← hkey]; exact hak)]
      exact ih k t hk hm

theorem sweep_agree_both (pred : Transaction → Bool) (ns : TransactionStatus)
    (da ca : Account) (ref : String) (m : String)
    (hpred : ∀ t, t.merchantID = m → pred t = false) :
    ∀ (xs ys : List (String × Transaction)), AgreeOff m xs ys →
    ∀ (es : List LedgerEntry) (n : Nat) (es₂ : List LedgerEntry) (n₂ : Nat),
      AgreeOff m (sweep pred ns da ca ref xs es n).1 (sweep pred ns da ca ref ys es₂ n₂).1 := by
  intro xs ys h
  induction h with
  | nil => intro es n es₂ n₂; exact List.Forall₂.nil
  | @cons a b as bs hab htail ih =>
    intro es n es₂ n₂
    obtain ⟨k₁, ta⟩ := a
    obtain ⟨k₂, tb⟩ := b
    obtain ⟨hkey, hmerch, heq⟩ := hab
    simp only at hkey hmerch heq
    by_cases hm : ta.merchantID = m
    · have hpa : ¬ pred ta = true := by rw [hpred ta hm]; exact Bool.false_ne_true
      have hpb : ¬ pred tb = true := by
        rw [hpred tb (by rw [← hmerch]; exact hm)]
        exact Bool.false_ne_true
      rw [sweep_cons_neg pred ns da ca ref k₁ ta as es n hpa,
        sweep_cons_neg pred ns da ca ref k₂ tb bs es₂ n₂ hpb]
      exact List.Forall₂.cons ⟨hkey, hmerch, heq⟩ (ih es n es₂ n₂)
    · have hteq : ta = tb := heq hm
      subst hteq
      by_cases hpa : pred ta = true
      · rw [sweep_cons_pos pred ns da ca ref k₁ ta as es n hpa,
          sweep_cons_pos pred ns da ca ref k₂ ta bs es₂ n₂ hpa]
        exact List.Forall₂.cons ⟨hkey, rfl, fun _ => rfl⟩ (ih _ _ _ _)
      · rw [sweep_cons_neg pred ns da ca ref k₁ ta as es n hpa,
          sweep_cons_neg pred ns da ca ref k₂ ta bs es₂ n₂ hpa]
        exact List.Forall₂.cons ⟨hkey, rfl, fun _ => rfl⟩ (ih es n es₂ n₂)

theorem sweep_agree_left (pred : Transaction → Bool) (ns : TransactionStatus)
    (da ca : Account) (ref : String) (m : String)
    (hpred : ∀ t, pred t = true → t.merchantID = m) :
    ∀ (xs ys : List (String × Transaction)), AgreeOff m xs ys →
    ∀ (es : List LedgerEntry) (n : Nat),
      AgreeOff m (sweep pred ns da ca ref xs es n).1 ys := by
  intro xs ys h
  induction h with
  | nil => intro es n; exact List.Forall₂.nil
  | @cons a b as bs hab htail ih =>
    intro es n
    obtain ⟨k₁, ta⟩ := a
    obtain ⟨k₂, tb⟩ := b
    obtain ⟨hkey, hmerch, heq⟩ := hab
    simp only at hkey hmerch heq
    by_cases hpa : pred ta = true
    · rw [sweep_cons_pos pred ns da ca ref k₁ ta as es n hpa]
      refine List.Forall₂.cons ⟨hkey, hmerch, ?_⟩ (ih _ _)
      intro hne
      exact absurd (hpred ta hpa) hne
    · rw [sweep_cons_neg pred ns da ca ref k₁ ta as es n hpa]
      exact List.Forall₂.cons ⟨hkey, hmerch, heq⟩ (ih es n)

theorem sweep_agree_right (pred : Transaction → Bool) (ns : TransactionStatus)
    (da ca : Account) (ref : String) (m : String)
    (hpred : ∀ t, pred t = true → t.merchantID = m) :
    ∀ (xs ys : List (String × Transaction)), AgreeOff m xs ys →
    ∀ (es : List LedgerEntry) (n : Nat),
      AgreeOff m xs (sweep pred ns da ca ref ys es n).1 := by
  intro xs ys h
  induction h with
  | nil => intro es n; exact List.Forall₂.nil
  | @cons a b as bs hab htail ih =>
    intro es n
    obtain ⟨k₁, ta⟩ := a
    obtain ⟨k₂, tb⟩ := b
    obtain ⟨hkey, hmerch, heq⟩ := hab
    simp only at hkey hmerch heq
    by_cases hpb : pred tb = true
    · rw [sweep_cons_pos pred ns da ca ref k₂ tb bs es n hpb]
      refine List.Forall₂.cons ⟨hkey, hmerch, ?_⟩ (ih _ _)
      intro hne
      have : tb.merchantID = m := hpred tb hpb
      rw [hmerch] at hne
      exact absurd this hne
    · rw [sweep_cons_neg pred ns da ca ref k₂ tb bs es n hpb]
      exact List.Forall₂.cons ⟨hkey, hmerch, heq⟩ (ih es n)

theorem payoutStep_agree (avail : String → Int) (pf pf₂ : String → Int → Option String)
    (m : String) (hagree : ∀ m₂, m₂ ≠ m → pf m₂ = pf₂ m₂)
    (acc acc₂ : Ledger × List PayoutResult) (m₂ : String)
    (h : AgreeOff m acc.1.transactions acc₂.1.transactions) :
    AgreeOff m (payoutStep avail pf acc m₂).1.transactions
      (payoutStep avail pf₂ acc₂ m₂).1.transactions := by
  unfold payoutStep
  by_cases hle : avail m₂ ≤ 0
  · simpa [hle] using h
  by_cases hm : m₂ = m
  · subst hm
    have hpredL : ∀ t : Transaction,
        (fun t : Transaction =>
          decide (t.merchantID = m₂ ∧ t.status = TransactionStatus.available)) t =
          true → t.merchantID = m₂ := by
      intro t ht
      rw [decide_eq_true_eq] at ht
      exact ht.1
    cases hpf : pf m₂ (avail m₂) with
    | some e =>
      cases hpf₂ : pf₂ m₂ (avail m₂) with
      | some e₂ => simpa [hle, hpf, hpf₂] using h
      | none =>
        simp only [hle, hpf, hpf₂, if_false, reduceIte]
        exact sweep_agree_right _ _ _ _ _ _ hpredL _ _ h _ _
    | none =>
      cases hpf₂ : pf₂ m₂ (avail m₂) with
      | some e₂ =>
        simp only [hle, hpf, hpf₂, if_false, reduceIte]
        exact sweep_agree_left _ _ _ _ _ _ hpredL _ _ h _ _
      | none =>
        simp only [hle, hpf, hpf₂, if_false, reduceIte]
        exact sweep_agree_right _ _ _ _ _ _ hpredL _ _
          (sweep_agree_left _ _ _ _ _ _ hpredL _ _ h _ _) _ _
  · have hpfeq : pf m₂ = pf₂ m₂ := hagree m₂ hm
    have hpredB : ∀ t : Transaction, t.merchantID = m →
        (fun t : Transaction =>
          decide (t.merchantID = m₂ ∧ t.status = TransactionStatus.available)) t =
          false := by
      intro t ht
      simp only [decide_eq_false_iff_not]
      rintro ⟨h₀, _⟩
      exact hm (by rw [← h₀, ht])
    cases hpf : pf m₂ (avail m₂) with
    | some e =>
      have hpf₂ : pf₂ m₂ (avail m₂) = some e := by rw [← hpfeq]; exact hpf
      simpa [hle, hpf, hpf₂] using h
    | none =>
      have hpf₂ : pf₂ m₂ (avail m₂) = none := by rw [← hpfeq]; exact hpf
      simp only [hle, hpf, hpf₂, if_false, reduceIte]
      exact sweep_agree_both _ _ _ _ _ _ hpredB _ _ h _ _ _ _

theorem payoutFold_agree (avail : String → Int) (pf pf₂ : String → Int → Option String)
    (m : String) (hagree : ∀ m₂, m₂ ≠ m → pf m₂ = pf₂ m₂) :
    ∀ (ord : List String) (acc acc₂ : Ledger × List PayoutResult),
      AgreeOff m acc.1.transactions acc₂.1.transactions →
      AgreeOff m ((ord.foldl (payoutStep avail pf) acc)).1.transactions
        ((ord.foldl (payoutStep avail pf₂) acc₂)).1.transactions := by
  intro ord
  induction ord with
  | nil => intro acc acc₂ h; exact h
  | cons m₂ rest ih =>
    intro acc acc₂ h
    simp only [List.foldl_cons]
    exact ih (payoutStep avail pf acc m₂) (payoutStep avail pf₂ acc₂ m₂)
      (payoutStep_agree avail pf pf₂ m hagree acc acc₂ m₂ h)

theorem filterMap_results_offm (avail : String → Int) (pf pf₂ : String → Int → Option String)
    (m : String) (hagree : ∀ m₂, m₂ ≠ m → pf m₂ = pf₂ m₂) :
    ∀ (ord : List String),
      ((ord.filterMap (resultFor avail pf)).filter (fun r => decide (r.merchantID ≠ m))) =
        ((ord.filterMap (resultFor avail pf₂)).filter (fun r => decide (r.merchantID ≠ m))) := by
  intro ord
  induction ord with
  | nil => rfl
  | cons m₂ rest ih =>
    rw [List.filterMap_cons, List.filterMap_cons]
    by_cases hm : m₂ = m
    · subst hm
      cases h₁ : resultFor avail pf m₂ with
      | none =>
        cases h₂ : resultFor avail pf₂ m₂ with
        | none => exact ih
        | some r =>
          have hrm := resultFor_merchantID avail pf₂ m₂ r h₂
          simp only [List.filter_cons, hrm]
          simp
          simpa using ih
      | some r =>
        have hrm := resultFor_merchantID avail pf m₂ r h₁
        cases h₂ : resultFor avail pf₂ m₂ with
        | none =>
          simp only [List.filter_cons, hrm]
          simp
          simpa using ih
        | some r₂ =>
          have hrm₂ := resultFor_merchantID avail pf₂ m₂ r₂ h₂
          simp only [List.filter_cons, hrm, hrm₂]
          simp
          simpa using ih
    · have heq : resultFor avail pf m₂ = resultFor avail pf₂ m₂ := by
        unfold resultFor
        rw [hagree m₂ hm]
      rw [heq]
      cases h₂ : resultFor avail pf₂ m₂ with
      | none => exact ih
      | some r => rw [List.filter_cons, List.filter_cons, ih]

/-- Claim C7: in an ExecutePayoutBatch call, a merchant whose payout
invocation fails keeps all its transactions untouched and gets no new
entries, the failure is carried per-merchant inside the result list (the
batch itself, by type, always returns), and for every other merchant both
the final transaction states and the results are exactly what they would be
under any capability that agrees outside the failing merchant. -/
theorem payout_failure_isolation (l : Ledger) (pf pf₂ : String → Int → Option String)
    (ord : List String) (m err : String)
    (hm : m ∈ ord) (hpos : 0 < availableOf l m)
    (hfail : pf m (availableOf l m) = some err)
    (hagree : ∀ m₂, m₂ ≠ m → pf m₂ = pf₂ m₂) :
    (∀ k t, lookupKey k l.transactions = some t → t.merchantID = m →
      lookupKey k (ExecutePayoutBatch l pf ord).1.transactions = some t) ∧
    (∀ e ∈ (ExecutePayoutBatch l pf ord).1.entries.drop l.entries.length,
      e.merchantID ≠ m) ∧
    ({ merchantID := m, amount := availableOf l m, success := false,
        error := some err } : PayoutResult) ∈ (ExecutePayoutBatch l pf ord).2 ∧
    (∀ k t, lookupKey k (ExecutePayoutBatch l pf ord).1.transactions = some t →
      t.merchantID ≠ m →
      lookupKey k (ExecutePayoutBatch l pf₂ ord).1.transactions = some t) ∧
    ((ExecutePayoutBatch l pf ord).2.filter (fun r => decide (r.merchantID ≠ m)) =
      (ExecutePayoutBatch l pf₂ ord).2.filter (fun r => decide (r.merchantID ≠ m))) := by
  refine ⟨?_, ?_, ?_, ?_, ?_⟩
  · intro k t hk hm₂
    exact payoutFold_fail_fixed (availableOf l) pf m err hfail ord (l, []) k t hk hm₂
  · obtain ⟨Δ, hΔ, hmem⟩ := payoutFold_entries_fail (availableOf l) pf m err hfail ord (l, [])
    intro e he
    have hΔ₂ : (ExecutePayoutBatch l pf ord).1.entries = l.entries ++ Δ := hΔ
    rw [hΔ₂, List.drop_left] at he
    exact hmem e he
  · rw [ExecutePayoutBatch_results]
    have hres : resultFor (availableOf l) pf m =
        some { merchantID := m, amount := availableOf l m, success := false, error := some err } := by
      simp only [resultFor]
      rw [if_neg (not_le.mpr hpos), hfail]
    exact List.mem_filterMap.2 ⟨m, hm, hres⟩
  · intro k t hk hm₂
    have hag := payoutFold_agree (availableOf l) pf pf₂ m hagree ord (l, []) (l, [])
      (agreeOff_refl m l.transactions)
    exact agreeOff_lookup m _ _ hag k t hk hm₂
  · rw [ExecutePayoutBatch_results, ExecutePayoutBatch_results]
    exact filterMap_results_offm (availableOf l) pf pf₂ m hagree ord

/-- A payout capability that fails for merchant mA and succeeds elsewhere. -/
def pf9 : String → Int → Option String :=
  fun m _ => if m = "mA" then some "bank down" else none

/-- Witness for C7: on the concrete state `l9`, merchant mA fails, stays
untouched and is reported failed, while the rest of the batch behaves as
under the capability itself (taken as its own agreeing variant). -/
theorem payout_failure_isolation_witness :
    (∀ k t, lookupKey k l9.transactions = some t → t.merchantID = "mA" →
      lookupKey k (ExecutePayoutBatch l9 pf9 ["mA", "mB"]).1.transactions = some t) ∧
    (∀ e ∈ (ExecutePayoutBatch l9 pf9 ["mA", "mB"]).1.entries.drop l9.entries.length,
      e.merchantID ≠ "mA") ∧
    ({ merchantID := "mA", amount := availableOf l9 "mA", success := false,
        error := some "bank down" } : PayoutResult) ∈
      (ExecutePayoutBatch l9 pf9 ["mA", "mB"]).2 ∧
    (∀ k t, lookupKey k (ExecutePayoutBatch l9 pf9 ["mA", "mB"]).1.transactions = some t →
      t.merchantID ≠ "mA" →
      lookupKey k (ExecutePayoutBatch l9 pf9 ["mA", "mB"]).1.transactions = some t) ∧
    ((ExecutePayoutBatch l9 pf9 ["mA", "mB"]).2.filter
        (fun r => decide (r.merchantID ≠ "mA")) =
      (ExecutePayoutBatch l9 pf9 ["mA", "mB"]).2.filter
        (fun r => decide (r.merchantID ≠ "mA"))) :=
  payout_failure_isolation l9 pf9 pf9 ["mA", "mB"] "mA" "bank down"
    (by decide) (by decide) (by decide) (fun _ _ => rfl)
